import Mathlib

/-!
Verification development for the dragonfly maintenance tool.

The Rust sources are shallowly embedded in Lean:

* `dragonfly-core/src/error.rs`        → `Dragonfly.Error`
* `dragonfly-duplicates/src/detector.rs` → `Dragonfly.find_duplicates` and friends
* `dragonfly-cleaner/src/cleaner.rs`   → `Dragonfly.SystemCleaner` namespace
* `dragonfly-cleaner/src/recovery.rs`  → `Dragonfly.Recovery` namespace
* `dragonfly-cli/src/commands/recover.rs` → restore modelling (see the
  `Modelled from the spec` doc comments)

Filesystem interaction is modelled by explicit state: a directory walk is a
list of entries, the recovery store is a record of the on-disk artefacts the
Rust code reads and writes.  `u64` quantities are modelled on `Nat`
(file-size sums cannot reach `2^64` in any realizable input, and the single
subtraction in the savings formula never underflows because the subtrahend
is an element of the summed list).
-/

set_option autoImplicit false

deriving instance DecidableEq for Except

namespace Dragonfly

/-- Domain error type, from `dragonfly-core/src/error.rs` (`enum Error`).
The `Io` case models `Error::Io(std::io::Error)` by its message. -/
inductive Error where
  | FileSystem (msg : String)
  | InvalidInput (msg : String)
  | NotFound (msg : String)
  | PermissionDenied (msg : String)
  | NotSupported (msg : String)
  | Internal (msg : String)
  | Io (msg : String)
deriving DecidableEq, Repr

/-- `FileEntity` from `dragonfly-core/src/domain/entities.rs`: a path and a
size in bytes. -/
structure FileEntity where
  path : String
  size : Nat
deriving DecidableEq, Repr

/-- One entry yielded by the `jwalk` directory walk: its path, whether it is
a regular file, and its byte content (`metadata.len()` is the content
length). -/
structure WalkEntry where
  path : String
  isFile : Bool
  content : List Nat
deriving DecidableEq, Repr

/-- `metadata.len()` for a walk entry. -/
def WalkEntry.size (e : WalkEntry) : Nat := e.content.length

/-- The `FileEntity` the detector builds from a walk entry
(`detector.rs` lines 62-67). -/
def WalkEntry.toEntity (e : WalkEntry) : FileEntity := ⟨e.path, e.size⟩

/-- A directory walk rooted at `root`: whether the root exists and the
entries discovered under it, in discovery order. -/
structure Walk where
  root : String
  rootExists : Bool
  entries : List WalkEntry
deriving DecidableEq, Repr

/-- `DuplicateDetector::compute_hash` (`detector.rs` lines 117-140) reads the
whole file and digests it with Blake3 (or xxHash3).  The digest is
deterministic in the byte content; we idealize it as collision-free and model
the digest by the byte content itself, so digest equality coincides with
content equality. -/
def compute_hash (content : List Nat) : List Nat := content

/-- The fingerprint the detector computes for a walk entry. -/
def fingerprintOf (e : WalkEntry) : List Nat := compute_hash e.content

/-- One step of the grouping loop in `find_duplicates` (`detector.rs`
line 79): `hash_groups.entry(hash).or_insert_with(Vec::new).push(file)`,
modelled on an insertion-ordered association list. -/
def addToGroups (key : List Nat) (f : FileEntity) :
    List (List Nat × List FileEntity) → List (List Nat × List FileEntity)
  | [] => [(key, [f])]
  | (k, g) :: rest =>
    if k = key then (k, g ++ [f]) :: rest else (k, g) :: addToGroups key f rest

/-- The grouping loop of `find_duplicates` (`detector.rs` lines 75-80) over
the collected files. -/
def groupByHash (files : List WalkEntry) : List (List Nat × List FileEntity) :=
  files.foldl (fun acc f => addToGroups (fingerprintOf f) f.toEntity acc) []

/-- Per-group savings: `total_size - keep_one` (`detector.rs` lines 91-95
and 108-112). -/
def groupSaving (g : List FileEntity) : Nat :=
  (g.map FileEntity.size).sum - ((g.head?.map FileEntity.size).getD 0)

/-- `DuplicateDetector::calculate_savings` (`detector.rs` lines 105-114). -/
def calculate_savings (dups : List (List FileEntity)) : Nat :=
  (dups.map groupSaving).sum

/-- `DuplicateResult` from `detector.rs`. -/
structure DuplicateResult where
  duplicates : List (List FileEntity)
  potential_savings : Nat
deriving DecidableEq, Repr

/-- The size/file filter of the walk phase of `find_duplicates`
(`detector.rs` lines 54-72): keep regular files with
`metadata.len() >= min_size`. -/
def eligibleEntries (w : Walk) (min_size : Nat) : List WalkEntry :=
  w.entries.filter (fun e => e.isFile && decide (min_size ≤ e.size))

/-- The duplicate groups of `find_duplicates`: the hash-group values with
2+ members (`detector.rs` lines 83-86). -/
def dupGroups (w : Walk) (min_size : Nat) : List (List FileEntity) :=
  ((groupByHash (eligibleEntries w min_size)).map Prod.snd).filter
    (fun g => 1 < g.length)

/-- `DuplicateDetector::find_duplicates` (`detector.rs` lines 42-102):
existence check on the root, walk + filter, group by content hash, keep
groups with 2+ members, sum per-group savings. -/
def find_duplicates (w : Walk) (min_size : Nat) : Except Error DuplicateResult :=
  if w.rootExists = false then
    .error (.NotFound ("Path does not exist: " ++ w.root))
  else
    .ok ⟨dupGroups w min_size, calculate_savings (dupGroups w min_size)⟩

/-- The regular files under the walk with byte content exactly `c` and size
at least `min_size`, in walk order.  These are the files the spec says must
land together in exactly one duplicate group. -/
def dupCandidates (w : Walk) (min_size : Nat) (c : List Nat) : List WalkEntry :=
  w.entries.filter
    (fun e => e.isFile && decide (min_size ≤ e.size) && decide (e.content = c))

/-- The entities of the files among `files` whose fingerprint is `c`, in
order: the ideal content class a duplicate group should coincide with. -/
def contentFilter (files : List WalkEntry) (c : List Nat) : List FileEntity :=
  (files.filter (fun e => decide (fingerprintOf e = c))).map WalkEntry.toEntity

/-- Invariant of the grouping loop: after processing `processed`, the
accumulator has pairwise-distinct keys, each group is exactly the content
class of its key restricted to `processed`, and every processed file's
fingerprint is a key. -/
def GroupsInv (processed : List WalkEntry)
    (acc : List (List Nat × List FileEntity)) : Prop :=
  (acc.map Prod.fst).Nodup ∧
  (∀ p ∈ acc, p.2 = contentFilter processed p.1) ∧
  (∀ e ∈ processed, fingerprintOf e ∈ acc.map Prod.fst)

lemma addToGroups_keys (key : List Nat) (f : FileEntity)
    (acc : List (List Nat × List FileEntity)) :
    (addToGroups key f acc).map Prod.fst =
      if key ∈ acc.map Prod.fst then acc.map Prod.fst
      else acc.map Prod.fst ++ [key] := by
  induction acc with
  | nil => simp [addToGroups]
  | cons q rest ih =>
    obtain ⟨k, g⟩ := q
    by_cases hk : k = key
    · subst hk
      simp [addToGroups]
    · have hne : ¬ key = k := fun h => hk h.symm
      by_cases hmem : key ∈ rest.map Prod.fst <;>
        simp [addToGroups, hk, ih, hmem, hne]

lemma mem_addToGroups {key : List Nat} {f : FileEntity}
    {acc : List (List Nat × List FileEntity)} {k' : List Nat}
    {v : List FileEntity}
    (hnd : (acc.map Prod.fst).Nodup) (hp : (k', v) ∈ addToGroups key f acc) :
    (∃ g, (k', g) ∈ acc ∧
      ((k' = key ∧ v = g ++ [f]) ∨ (k' ≠ key ∧ v = g)))
    ∨ ((k' = key ∧ v = [f]) ∧ key ∉ acc.map Prod.fst) := by
  induction acc with
  | nil =>
    simp only [addToGroups, List.mem_singleton, Prod.mk.injEq] at hp
    exact Or.inr ⟨hp, by simp⟩
  | cons q rest ih =>
    obtain ⟨k, g⟩ := q
    have hndtail : (rest.map Prod.fst).Nodup := (List.nodup_cons.mp hnd).2
    have hknot : k ∉ rest.map Prod.fst := (List.nodup_cons.mp hnd).1
    by_cases hk : k = key
    · subst hk
      have hstep : addToGroups k f ((k, g) :: rest) = (k, g ++ [f]) :: rest := by
        simp [addToGroups]
      rw [hstep] at hp
      rcases List.mem_cons.mp hp with hp' | hp'
      · rw [Prod.mk.injEq] at hp'
        obtain ⟨rfl, rfl⟩ := hp'
        exact Or.inl ⟨g, List.mem_cons_self _ _, Or.inl ⟨rfl, rfl⟩⟩
      · have hp1 : k' ∈ rest.map Prod.fst :=
          List.mem_map.mpr ⟨(k', v), hp', rfl⟩
        have hne : k' ≠ k := fun h => hknot (h ▸ hp1)
        exact Or.inl ⟨v, List.mem_cons_of_mem _ hp', Or.inr ⟨hne, rfl⟩⟩
    · have hstep : addToGroups key f ((k, g) :: rest) =
          (k, g) :: addToGroups key f rest := by
        simp [addToGroups, hk]
      rw [hstep] at hp
      rcases List.mem_cons.mp hp with hp' | hp'
      · rw [Prod.mk.injEq] at hp'
        obtain ⟨rfl, rfl⟩ := hp'
        exact Or.inl ⟨v, List.mem_cons_self _ _, Or.inr ⟨hk, rfl⟩⟩
      · rcases ih hndtail hp' with ⟨g', hg', hdisj⟩ | ⟨hkv, hnot⟩
        · exact Or.inl ⟨g', List.mem_cons_of_mem _ hg', hdisj⟩
        · refine Or.inr ⟨hkv, ?_⟩
          simp only [List.map_cons, List.mem_cons]
          rintro (h | h)
          · exact hk h.symm
          · exact hnot h

lemma contentFilter_append_one (processed : List WalkEntry) (e : WalkEntry)
    (c : List Nat) :
    contentFilter (processed ++ [e]) c =
      contentFilter processed c ++
        (if fingerprintOf e = c then [e.toEntity] else []) := by
  by_cases h : fingerprintOf e = c <;>
    simp [contentFilter, List.filter_append, h]

lemma contentFilter_eq_nil {processed : List WalkEntry} {c : List Nat}
    (h : ∀ e ∈ processed, fingerprintOf e ≠ c) :
    contentFilter processed c = [] := by
  unfold contentFilter
  rw [List.filter_eq_nil_iff.mpr (by intro e he; simpa using h e he)]
  rfl

lemma GroupsInv.step (processed : List WalkEntry)
    (acc : List (List Nat × List FileEntity)) (e : WalkEntry)
    (h : GroupsInv processed acc) :
    GroupsInv (processed ++ [e])
      (addToGroups (fingerprintOf e) e.toEntity acc) := by
  obtain ⟨hnd, hsnd, hcomp⟩ := h
  refine ⟨?_, ?_, ?_⟩
  · rw [addToGroups_keys]
    by_cases hmem : fingerprintOf e ∈ acc.map Prod.fst
    · rw [if_pos hmem]; exact hnd
    · rw [if_neg hmem]
      refine List.Nodup.append hnd (List.nodup_singleton _) ?_
      intro x hx hx'
      rw [List.mem_singleton] at hx'
      exact hmem (hx' ▸ hx)
  · intro p hp
    obtain ⟨k', v⟩ := p
    rcases mem_addToGroups hnd hp with ⟨g, hg, hdisj⟩ | ⟨⟨rfl, rfl⟩, hnot⟩
    · have hchar : g = contentFilter processed k' := by
        simpa using hsnd (k', g) hg
      rcases hdisj with ⟨hkey, hval⟩ | ⟨hkey, hval⟩
      · subst hkey
        show v = contentFilter (processed ++ [e]) (fingerprintOf e)
        rw [hval, hchar, contentFilter_append_one, if_pos rfl]
      · show v = contentFilter (processed ++ [e]) k'
        rw [hval, hchar, contentFilter_append_one,
          if_neg (fun hc => hkey hc.symm), List.append_nil]
    · have hnone : ∀ e' ∈ processed, fingerprintOf e' ≠ fingerprintOf e := by
        intro e' he' hfe
        exact hnot (hfe ▸ hcomp e' he')
      show [e.toEntity] = contentFilter (processed ++ [e]) (fingerprintOf e)
      rw [contentFilter_append_one, contentFilter_eq_nil hnone, if_pos rfl,
        List.nil_append]
  · intro e' he'
    rw [addToGroups_keys]
    rcases List.mem_append.mp he' with he' | he'
    · by_cases hmem : fingerprintOf e ∈ acc.map Prod.fst <;>
        simp [hmem, hcomp e' he']
    · have : e' = e := by simpa using he'
      subst this
      by_cases hmem : fingerprintOf e' ∈ acc.map Prod.fst <;> simp [hmem]

lemma groupsInv_foldl (rest : List WalkEntry) :
    ∀ (processed : List WalkEntry) (acc : List (List Nat × List FileEntity)),
      GroupsInv processed acc →
      GroupsInv (processed ++ rest)
        (rest.foldl (fun acc f => addToGroups (fingerprintOf f) f.toEntity acc)
          acc) := by
  induction rest with
  | nil => intro processed acc h; simpa using h
  | cons e rest ih =>
    intro processed acc h
    have hstep := GroupsInv.step processed acc e h
    have := ih (processed ++ [e]) _ hstep
    simpa using this

lemma groupsInv_groupByHash (files : List WalkEntry) :
    GroupsInv files (groupByHash files) := by
  have := groupsInv_foldl files [] [] ⟨List.nodup_nil, by simp, by simp⟩
  simpa [groupByHash] using this

lemma filter_filter_bool {α : Type} (p q : α → Bool) (l : List α) :
    (l.filter p).filter q = l.filter (fun a => p a && q a) := by
  induction l with
  | nil => rfl
  | cons a t ih =>
    cases hp : p a <;> cases hq : q a <;>
      simp [List.filter_cons, hp, hq, ih]

lemma contentFilter_eligible (w : Walk) (min_size : Nat) (c : List Nat) :
    contentFilter (eligibleEntries w min_size) c =
      (dupCandidates w min_size c).map WalkEntry.toEntity := by
  unfold contentFilter eligibleEntries dupCandidates
  rw [filter_filter_bool]
  rfl

lemma countP_eq_one_of_nodup {α : Type} [DecidableEq α] {l : List α}
    (hnd : l.Nodup) {c : α} (hc : c ∈ l) :
    l.countP (fun x => decide (x = c)) = 1 := by
  induction l with
  | nil => cases hc
  | cons a t ih =>
    have hat : a ∉ t := (List.nodup_cons.mp hnd).1
    have hndt : t.Nodup := (List.nodup_cons.mp hnd).2
    rw [List.countP_cons]
    rcases List.mem_cons.mp hc with rfl | hct
    · have hzero : t.countP (fun x => decide (x = c)) = 0 := by
        apply List.countP_eq_zero.mpr
        intro b hb
        simp only [decide_eq_true_eq]
        intro hbc
        exact hat (hbc ▸ hb)
      simp [hzero]
    · have hane : ¬ (a = c) := fun h => hat (h ▸ hct)
      rw [ih hndt hct]
      simp [hane]

lemma countP_congr_bool {α : Type} {p q : α → Bool} {l : List α}
    (h : ∀ a ∈ l, p a = q a) : l.countP p = l.countP q := by
  induction l with
  | nil => rfl
  | cons a t ih =>
    rw [List.countP_cons, List.countP_cons,
      ih (fun b hb => h b (List.mem_cons_of_mem _ hb)),
      h a (List.mem_cons_self _ _)]

lemma countP_fst_eq_one {κ β : Type} [DecidableEq κ] {l : List (κ × β)}
    (hnd : (l.map Prod.fst).Nodup) {c : κ} (hc : c ∈ l.map Prod.fst) :
    l.countP (fun p => decide (p.1 = c)) = 1 := by
  induction l with
  | nil => cases hc
  | cons a t ih =>
    have hat : a.1 ∉ t.map Prod.fst := (List.nodup_cons.mp hnd).1
    have hndt : (t.map Prod.fst).Nodup := (List.nodup_cons.mp hnd).2
    rw [List.countP_cons]
    rcases List.mem_cons.mp hc with hac | hct
    · have hzero : t.countP (fun p => decide (p.1 = c)) = 0 := by
        apply List.countP_eq_zero.mpr
        intro b hb
        simp only [decide_eq_true_eq]
        intro hbc
        exact hat (hac ▸ hbc ▸ List.mem_map.mpr ⟨b, hb, rfl⟩)
      simp [hzero, hac.symm]
    · have hane : ¬ (a.1 = c) := by
        intro h
        have : c ∈ t.map Prod.fst := hct
        exact hat (h ▸ this)
      rw [ih hndt hct]
      simp [hane]

lemma dupCandidates_eq_filter (w : Walk) (min_size : Nat) (c : List Nat) :
    dupCandidates w min_size c =
      (eligibleEntries w min_size).filter
        (fun e => decide (fingerprintOf e = c)) := by
  unfold eligibleEntries dupCandidates
  rw [filter_filter_bool]
  rfl

lemma mem_entries_of_mem_eligible {w : Walk} {min_size : Nat} {e : WalkEntry}
    (h : e ∈ eligibleEntries w min_size) : e ∈ w.entries :=
  List.mem_of_mem_filter h

/-- If two content classes give the same (nonempty) group of entities, the
contents agree — duplicate file paths are ruled out by `hpaths`. -/
lemma contentFilter_inj {w : Walk} {min_size : Nat}
    (hpaths : (w.entries.map WalkEntry.path).Nodup) {c₁ c₂ : List Nat}
    (h : contentFilter (eligibleEntries w min_size) c₁ =
      contentFilter (eligibleEntries w min_size) c₂)
    (hne : contentFilter (eligibleEntries w min_size) c₂ ≠ []) :
    c₁ = c₂ := by
  have hL2ne : (eligibleEntries w min_size).filter
      (fun e => decide (fingerprintOf e = c₂)) ≠ [] := by
    intro hnil
    apply hne
    show ((eligibleEntries w min_size).filter
      (fun e => decide (fingerprintOf e = c₂))).map WalkEntry.toEntity = []
    rw [hnil]
    rfl
  obtain ⟨e₂, t₂, h2⟩ := List.exists_cons_of_ne_nil hL2ne
  have hmap : ((eligibleEntries w min_size).filter
        (fun e => decide (fingerprintOf e = c₁))).map WalkEntry.toEntity =
      ((eligibleEntries w min_size).filter
        (fun e => decide (fingerprintOf e = c₂))).map WalkEntry.toEntity := h
  have hL1ne : (eligibleEntries w min_size).filter
      (fun e => decide (fingerprintOf e = c₁)) ≠ [] := by
    intro hnil
    rw [hnil, h2] at hmap
    simp at hmap
  obtain ⟨e₁, t₁, h1⟩ := List.exists_cons_of_ne_nil hL1ne
  rw [h1, h2] at hmap
  simp only [List.map_cons, List.cons.injEq] at hmap
  have hpath : e₁.path = e₂.path := congrArg FileEntity.path hmap.1
  have he₁f : e₁ ∈ (eligibleEntries w min_size).filter
      (fun e => decide (fingerprintOf e = c₁)) := h1 ▸ List.mem_cons_self _ _
  have he₂f : e₂ ∈ (eligibleEntries w min_size).filter
      (fun e => decide (fingerprintOf e = c₂)) := h2 ▸ List.mem_cons_self _ _
  have hfp₁ : fingerprintOf e₁ = c₁ := by
    have := List.of_mem_filter he₁f
    simpa using this
  have hfp₂ : fingerprintOf e₂ = c₂ := by
    have := List.of_mem_filter he₂f
    simpa using this
  have he₁ : e₁ ∈ w.entries :=
    mem_entries_of_mem_eligible (List.mem_of_mem_filter he₁f)
  have he₂ : e₂ ∈ w.entries :=
    mem_entries_of_mem_eligible (List.mem_of_mem_filter he₂f)
  have heq : e₁ = e₂ := List.inj_on_of_nodup_map hpaths he₁ he₂ hpath
  rw [← hfp₁, heq, hfp₂]

lemma find_duplicates_ok {w : Walk} {min_size : Nat} {res : DuplicateResult}
    (hok : find_duplicates w min_size = .ok res) :
    res.duplicates = dupGroups w min_size ∧
    res.potential_savings = calculate_savings (dupGroups w min_size) := by
  by_cases hr : w.rootExists = false
  · rw [find_duplicates, if_pos hr] at hok
    cases hok
  · rw [find_duplicates, if_neg hr] at hok
    injection hok with h'
    rw [← h']
    exact ⟨rfl, rfl⟩

/-- Claim C3: `find_duplicates` puts all regular files of identical content
and size `≥ min_size` together in exactly one returned group, each returned
group consists exactly of the entities of one content class (so files of
differing content are excluded from it), and every returned group has at
least 2 members.  Content classes are the `dupCandidates`; paths in the walk
are distinct, as on a real filesystem. -/
theorem find_duplicates_grouping (w : Walk) (min_size : Nat)
    (res : DuplicateResult)
    (hpaths : (w.entries.map WalkEntry.path).Nodup)
    (hok : find_duplicates w min_size = .ok res) :
    (∀ c : List Nat, 2 ≤ (dupCandidates w min_size c).length →
      res.duplicates.countP
        (fun g =>
          decide (g = (dupCandidates w min_size c).map WalkEntry.toEntity))
        = 1)
    ∧ (∀ g ∈ res.duplicates, ∃ c : List Nat,
        g = (dupCandidates w min_size c).map WalkEntry.toEntity)
    ∧ (∀ g ∈ res.duplicates, 2 ≤ g.length) := by
  obtain ⟨hdup, -⟩ := find_duplicates_ok hok
  obtain ⟨hnd, hsnd, hcomp⟩ := groupsInv_groupByHash (eligibleEntries w min_size)
  refine ⟨?_, ?_, ?_⟩
  · intro c hlen
    have htargetCF : contentFilter (eligibleEntries w min_size) c =
        (dupCandidates w min_size c).map WalkEntry.toEntity := by
      rw [contentFilter, ← dupCandidates_eq_filter]
    have htlen : 2 ≤ ((dupCandidates w min_size c).map WalkEntry.toEntity).length := by
      rw [List.length_map]
      exact hlen
    have hCne : dupCandidates w min_size c ≠ [] := by
      intro hnil
      rw [hnil] at hlen
      simp at hlen
    obtain ⟨e₂, t₂, hL2⟩ := List.exists_cons_of_ne_nil hCne
    have he₂ : e₂ ∈ dupCandidates w min_size c := hL2 ▸ List.mem_cons_self _ _
    have he₂f : e₂ ∈ (eligibleEntries w min_size).filter
        (fun e => decide (fingerprintOf e = c)) := by
      rw [← dupCandidates_eq_filter]
      exact he₂
    have hfp₂ : fingerprintOf e₂ = c := by
      have := List.of_mem_filter he₂f
      simpa using this
    have hkey : c ∈ (groupByHash (eligibleEntries w min_size)).map Prod.fst :=
      hfp₂ ▸ hcomp e₂ (List.mem_of_mem_filter he₂f)
    have hcong : ∀ p ∈ groupByHash (eligibleEntries w min_size),
        (decide (p.2 = (dupCandidates w min_size c).map WalkEntry.toEntity)
          && decide (1 < p.2.length)) = decide (p.1 = c) := by
      intro p hp
      have hchar : p.2 = contentFilter (eligibleEntries w min_size) p.1 :=
        hsnd p hp
      by_cases hpc : p.1 = c
      · have hval : p.2 = (dupCandidates w min_size c).map WalkEntry.toEntity := by
          rw [hchar, hpc, htargetCF]
        have hlen2 : 1 < p.2.length := by
          rw [hval]
          exact htlen
        have h1 : decide
            (p.2 = (dupCandidates w min_size c).map WalkEntry.toEntity) =
              true := decide_eq_true hval
        have h2 : decide (1 < p.2.length) = true := decide_eq_true hlen2
        have h3 : decide (p.1 = c) = true := decide_eq_true hpc
        rw [h1, h2, h3]
        rfl
      · have hval : p.2 ≠ (dupCandidates w min_size c).map WalkEntry.toEntity := by
          intro hv
          apply hpc
        -- p.2 = contentFilter p.1 equals contentFilter c; conclude p.1 = c
          refine @contentFilter_inj w min_size hpaths p.1 c ?_ ?_
          · rw [← hchar, hv, htargetCF]
          · rw [htargetCF]
            intro hnil
            rw [hnil] at htlen
            simp at htlen
        simp [hval, hpc]
    have step1 : res.duplicates.countP
        (fun g =>
          decide (g = (dupCandidates w min_size c).map WalkEntry.toEntity)) =
        (groupByHash (eligibleEntries w min_size)).countP
          ((fun g =>
            decide (g = (dupCandidates w min_size c).map WalkEntry.toEntity)
              && decide (1 < g.length)) ∘ Prod.snd) := by
      rw [hdup, dupGroups, List.countP_filter, List.countP_map]
    exact step1.trans ((countP_congr_bool hcong).trans
      (countP_fst_eq_one hnd hkey))
  · intro g hg
    rw [hdup, dupGroups] at hg
    have hg' := List.mem_of_mem_filter hg
    obtain ⟨p, hp, rfl⟩ := List.mem_map.mp hg'
    refine ⟨p.1, ?_⟩
    have := hsnd p hp
    rw [this, contentFilter, ← dupCandidates_eq_filter]
  · intro g hg
    rw [hdup, dupGroups] at hg
    have := List.of_mem_filter hg
    simpa using this

def sampleDupResult : DuplicateResult :=
  ⟨[[⟨"/tmp/dir/a.txt", 3⟩, ⟨"/tmp/dir/b.txt", 3⟩]], 3⟩

def sampleWalk : Walk :=
  { root := "/tmp/dir"
    rootExists := true
    entries :=
      [ ⟨"/tmp/dir/a.txt", true, [1, 2, 3]⟩
      , ⟨"/tmp/dir/b.txt", true, [1, 2, 3]⟩
      , ⟨"/tmp/dir/c.txt", true, [9, 9, 9]⟩ ] }

/-- Witness for C3 at a concrete walk with two identical files and one
different file. -/
theorem find_duplicates_grouping_witness :
    (sampleWalk.entries.map WalkEntry.path).Nodup ∧
    find_duplicates sampleWalk 0 = .ok sampleDupResult ∧
    ((∀ c : List Nat, 2 ≤ (dupCandidates sampleWalk 0 c).length →
      sampleDupResult.duplicates.countP
        (fun g =>
          decide (g = (dupCandidates sampleWalk 0 c).map WalkEntry.toEntity))
        = 1)
    ∧ (∀ g ∈ sampleDupResult.duplicates, ∃ c : List Nat,
        g = (dupCandidates sampleWalk 0 c).map WalkEntry.toEntity)
    ∧ (∀ g ∈ sampleDupResult.duplicates, 2 ≤ g.length)) :=
  ⟨by decide, by decide,
    find_duplicates_grouping sampleWalk 0 sampleDupResult (by decide)
      (by decide)⟩

/-- Claim C4: the returned `potential_savings` is the sum over returned
groups of (total group size minus the first member's size), and a group
whose members all have size `S` contributes `(N - 1) * S` where `N` is its
length. -/
theorem find_duplicates_savings (w : Walk) (min_size : Nat)
    (res : DuplicateResult)
    (hok : find_duplicates w min_size = .ok res) :
    res.potential_savings =
      (res.duplicates.map (fun g =>
        (g.map FileEntity.size).sum -
          ((g.head?.map FileEntity.size).getD 0))).sum
    ∧ ∀ g ∈ res.duplicates, ∀ S : Nat, (∀ f ∈ g, f.size = S) →
        groupSaving g = (g.length - 1) * S := by
  obtain ⟨hdup, hsav⟩ := find_duplicates_ok hok
  constructor
  · rw [hsav, ← hdup]
    rfl
  · intro g hg S hS
    unfold groupSaving
    cases g with
    | nil => simp
    | cons f₀ t =>
      have hrep : (f₀ :: t).map FileEntity.size =
          List.replicate ((f₀ :: t).map FileEntity.size).length S := by
        apply List.eq_replicate_of_mem
        intro b hb
        obtain ⟨f, hf, rfl⟩ := List.mem_map.mp hb
        exact hS f hf
      have hf₀ : f₀.size = S := hS f₀ (List.mem_cons_self _ _)
      rw [hrep, List.sum_replicate, smul_eq_mul, List.length_map,
        List.length_cons]
      have hhead : ((((f₀ :: t).head?).map FileEntity.size).getD 0) = S := by
        simp [hf₀]
      rw [hhead, Nat.succ_mul, Nat.add_sub_cancel, Nat.add_sub_cancel]

/-- Witness for C4 at the sample walk. -/
theorem find_duplicates_savings_witness :
    find_duplicates sampleWalk 0 = .ok sampleDupResult ∧
    (sampleDupResult.potential_savings =
      (sampleDupResult.duplicates.map (fun g =>
        (g.map FileEntity.size).sum -
          ((g.head?.map FileEntity.size).getD 0))).sum
    ∧ ∀ g ∈ sampleDupResult.duplicates, ∀ S : Nat,
        (∀ f ∈ g, f.size = S) → groupSaving g = (g.length - 1) * S) :=
  ⟨by decide, find_duplicates_savings sampleWalk 0 sampleDupResult (by decide)⟩

/-- Claim C8: on a nonexistent root, `find_duplicates` fails with exactly
the `NotFound` error variant. -/
theorem find_duplicates_notFound (w : Walk) (min_size : Nat)
    (h : w.rootExists = false) :
    find_duplicates w min_size =
      .error (.NotFound ("Path does not exist: " ++ w.root)) := by
  rw [find_duplicates, if_pos h]

/-- Witness for C8 at a concrete nonexistent path. -/
theorem find_duplicates_notFound_witness :
    ({ root := "/nonexistent/path/12345", rootExists := false,
        entries := [] } : Walk).rootExists = false ∧
    find_duplicates
      { root := "/nonexistent/path/12345", rootExists := false,
        entries := [] } 7 =
      .error (.NotFound ("Path does not exist: " ++ "/nonexistent/path/12345")) :=
  ⟨rfl, find_duplicates_notFound _ 7 rfl⟩

section DuplicatesSanity

example :
    find_duplicates sampleWalk 0 =
      .ok ⟨[[⟨"/tmp/dir/a.txt", 3⟩, ⟨"/tmp/dir/b.txt", 3⟩]], 3⟩ := by decide

example :
    find_duplicates { sampleWalk with rootExists := false } 0 =
      .error (.NotFound "Path does not exist: /tmp/dir") := by decide

end DuplicatesSanity

/-! ## Cleaner (`dragonfly-cleaner/src/cleaner.rs`, `targets.rs`) -/

/-- `CleanTarget` from `targets.rs`. -/
inductive CleanTarget where
  | Caches
  | Logs
  | Temp
  | All
deriving DecidableEq, Repr

/-- `CleanTarget::paths` (`targets.rs` lines 20-34). -/
def CleanTarget.paths : CleanTarget → List String
  | .Caches => ["~/Library/Caches", "/Library/Caches"]
  | .Logs => ["~/Library/Logs", "/var/log"]
  | .Temp => ["/tmp", "/var/tmp"]
  | .All =>
    ["~/Library/Caches", "/Library/Caches", "~/Library/Logs", "/var/log",
     "/tmp", "/var/tmp"]

/-- An entry of the walk under one cleaning root: path, regular-file flag,
`metadata.len()`. -/
structure SysFile where
  path : String
  isFile : Bool
  size : Nat
deriving DecidableEq, Repr

/-- The filesystem as the cleaner sees it: the existing roots, each with the
walk entries currently under it.  A root absent from `dirs` does not exist
(`path.exists()` is false). -/
structure FsState where
  dirs : List (String × List SysFile)
deriving DecidableEq, Repr

/-- Lookup of an existing root. -/
def lookupDir (p : String) : List (String × List SysFile) → Option (List SysFile)
  | [] => none
  | (q, es) :: rest => if q = p then some es else lookupDir p rest

/-- Replace the entries of root `p`. -/
def updateDir (p : String) (es : List SysFile) :
    List (String × List SysFile) → List (String × List SysFile)
  | [] => []
  | (q, old) :: rest =>
    if q = p then (q, es) :: rest else (q, old) :: updateDir p es rest

/-- `CleanResult` from `cleaner.rs` lines 10-18 (`files_found` holds the
paths; the CLI prints its length). -/
structure CleanResult where
  files_cleaned : Nat
  bytes_freed : Nat
  files_found : List String
deriving DecidableEq, Repr

/-- `expand_path` (`cleaner.rs` lines 83-92): `~/`-prefixed paths are joined
onto the home directory; `None` home is a `NotFound` error.  The
`strip_prefix("~/")` test is modelled character-wise on `String.data`. -/
def expand_path (home : Option String) (path : String) : Except Error String :=
  if path.data.take 2 = ['~', '/'] then
    match home with
    | none => .error (.NotFound "Home directory not found")
    | some h => .ok (h ++ "/" ++ String.mk (path.data.drop 2))
  else
    .ok path

/-- `scan_directory` (`cleaner.rs` lines 95-110): collect regular files and
sum their sizes; no mutation. -/
def scan_directory : List SysFile → List String × Nat
  | [] => ([], 0)
  | e :: rest =>
    let (fs, b) := scan_directory rest
    if e.isFile then (e.path :: fs, e.size + b) else (fs, b)

/-- `clean_directory` (`cleaner.rs` lines 113-132): delete each regular file
with `fs::remove_file`, counting only files whose removal succeeded
(`fails` is the set of paths whose removal fails).  Returns the collected
(paths, bytes) and the entries remaining on disk.  No archiving of any kind
happens here. -/
def clean_directory (fails : List String) :
    List SysFile → (List String × Nat) × List SysFile
  | [] => (([], 0), [])
  | e :: rest =>
    let ((fs, b), rem) := clean_directory fails rest
    if e.isFile then
      if e.path ∈ fails then ((fs, b), e :: rem)
      else ((e.path :: fs, e.size + b), rem)
    else ((fs, b), e :: rem)

/-- The loop of `SystemCleaner::clean` (`cleaner.rs` lines 37-54) over the
target's paths, threading the filesystem state and the accumulators. -/
def cleanGo (home : Option String) (fails : List String) (dry : Bool) :
    List String → FsState → Nat → Nat → List String →
      Except Error (CleanResult × FsState)
  | [], st, tf, tb, af => .ok (⟨tf, tb, af⟩, st)
  | p :: rest, st, tf, tb, af =>
    match expand_path home p with
    | .error e => .error e
    | .ok ep =>
      match lookupDir ep st.dirs with
      | none => cleanGo home fails dry rest st tf tb af
      | some entries =>
        if dry then
          cleanGo home fails dry rest st
            (tf + (scan_directory entries).1.length)
            (tb + (scan_directory entries).2)
            (af ++ (scan_directory entries).1)
        else
          cleanGo home fails dry rest
            ⟨updateDir ep (clean_directory fails entries).2 st.dirs⟩
            (tf + (clean_directory fails entries).1.1.length)
            (tb + (clean_directory fails entries).1.2)
            (af ++ (clean_directory fails entries).1.1)

/-- `SystemCleaner::clean` (`cleaner.rs` lines 31-61). -/
def SystemCleaner.clean (home : Option String) (fails : List String)
    (target : CleanTarget) (dry_run : Bool) (st : FsState) :
    Except Error (CleanResult × FsState) :=
  cleanGo home fails dry_run target.paths st 0 0 []

lemma expand_path_some (h : String) (p : String) :
    ∃ ep, expand_path (some h) p = .ok ep := by
  unfold expand_path
  by_cases hp : p.data.take 2 = ['~', '/']
  · exact ⟨h ++ "/" ++ String.mk (p.data.drop 2), by rw [if_pos hp]⟩
  · exact ⟨p, by rw [if_neg hp]⟩

lemma cleanGo_dry_run (h : String) (fails : List String) :
    ∀ (paths : List String) (st : FsState) (tf tb : Nat) (af : List String),
      ∃ res, cleanGo (some h) fails true paths st tf tb af = .ok (res, st) := by
  intro paths
  induction paths with
  | nil => intro st tf tb af; exact ⟨⟨tf, tb, af⟩, rfl⟩
  | cons p rest ih =>
    intro st tf tb af
    obtain ⟨ep, hep⟩ := expand_path_some h p
    cases hlk : lookupDir ep st.dirs with
    | none =>
      obtain ⟨res, hres⟩ := ih st tf tb af
      refine ⟨res, ?_⟩
      simp only [cleanGo, hep, hlk]
      exact hres
    | some entries =>
      obtain ⟨res, hres⟩ := ih st (tf + (scan_directory entries).1.length)
        (tb + (scan_directory entries).2) (af ++ (scan_directory entries).1)
      refine ⟨res, ?_⟩
      simp only [cleanGo, hep, hlk, if_true]
      exact hres

lemma cleanGo_dry_run_missing (h : String) (fails : List String) :
    ∀ (paths : List String) (st : FsState) (tf tb : Nat) (af : List String),
      (∀ p ∈ paths, ∀ ep, expand_path (some h) p = .ok ep →
        lookupDir ep st.dirs = none) →
      cleanGo (some h) fails true paths st tf tb af = .ok (⟨tf, tb, af⟩, st) := by
  intro paths
  induction paths with
  | nil => intro st tf tb af _; rfl
  | cons p rest ih =>
    intro st tf tb af hmiss
    obtain ⟨ep, hep⟩ := expand_path_some h p
    have hnone : lookupDir ep st.dirs = none :=
      hmiss p (List.mem_cons_self _ _) ep hep
    simp only [cleanGo, hep, hnone]
    exact ih st tf tb af
      (fun q hq eq heq => hmiss q (List.mem_cons_of_mem _ hq) eq heq)

/-- Claim C9: in dry-run mode `clean` only enumerates — the filesystem state
is returned unchanged and no error occurs — and when none of the target's
(expanded) paths exists it returns `files_found = []`, `bytes_freed = 0`
with no error.  Non-existent roots are skipped silently in general. -/
theorem clean_dry_run_frame (h : String) (fails : List String)
    (target : CleanTarget) (st : FsState) :
    (∃ res, SystemCleaner.clean (some h) fails target true st = .ok (res, st))
    ∧ ((∀ p ∈ target.paths, ∀ ep, expand_path (some h) p = .ok ep →
          lookupDir ep st.dirs = none) →
        SystemCleaner.clean (some h) fails target true st =
          .ok (⟨0, 0, []⟩, st)) := by
  constructor
  · exact cleanGo_dry_run h fails target.paths st 0 0 []
  · intro hmiss
    exact cleanGo_dry_run_missing h fails target.paths st 0 0 [] hmiss

/-- Witness for C9: dry-run clean of the Temp target on a filesystem where
neither `/tmp` nor `/var/tmp` exists. -/
theorem clean_dry_run_frame_witness :
    (∃ res, SystemCleaner.clean (some "/Users/u") [] .Temp true
      (⟨[("/opt", [⟨"/opt/x", true, 5⟩])]⟩ : FsState) =
        .ok (res, ⟨[("/opt", [⟨"/opt/x", true, 5⟩])]⟩))
    ∧ ((∀ p ∈ CleanTarget.Temp.paths, ∀ ep,
          expand_path (some "/Users/u") p = .ok ep →
          lookupDir ep (⟨[("/opt", [⟨"/opt/x", true, 5⟩])]⟩ : FsState).dirs =
            none) →
        SystemCleaner.clean (some "/Users/u") [] .Temp true
          ⟨[("/opt", [⟨"/opt/x", true, 5⟩])]⟩ =
          .ok (⟨0, 0, []⟩, ⟨[("/opt", [⟨"/opt/x", true, 5⟩])]⟩)) :=
  clean_dry_run_frame "/Users/u" [] .Temp ⟨[("/opt", [⟨"/opt/x", true, 5⟩])]⟩

/-! ## Recovery store (`dragonfly-cleaner/src/recovery.rs`)

The `RecoveryManager` owns an on-disk tree: `manifests/`, `archives/<id>/`
and `index.json`.  `StoreState` records exactly the artefacts the Rust code
reads and writes: whether the two directories exist, the parse status and
contents of the index file, the manifest files keyed by id, and the set of
ids whose archive directory exists.  `chrono::DateTime<Utc>` is modelled as
a `Nat` tick count. -/

/-- `RecoveryItem` (`recovery.rs` lines 11-27).  The SHA-256 checksum string
is modelled, like the detector's digest, by the digested bytes themselves
(deterministic, idealized collision-free). -/
structure RecoveryItem where
  original_path : String
  archive_path : String
  size : Nat
  checksum : List Nat
  category : String
  source : String
  can_regenerate : Bool
deriving DecidableEq, Repr

/-- `RecoveryManifest` (`recovery.rs` lines 30-42). -/
structure RecoveryManifest where
  id : String
  timestamp : Nat
  total_size : Nat
  items : List RecoveryItem
  retention_until : Nat
deriving DecidableEq, Repr

/-- What reading `index.json` can yield: well-formed JSON with a
`recoveries` list, or malformed content (`serde_json::from_str` fails). -/
inductive IndexContent where
  | malformed
  | wellFormed (recoveries : List String)
deriving DecidableEq, Repr

/-- On-disk state owned by the `RecoveryManager`. -/
structure StoreState where
  manifestsDir : Bool
  archivesDir : Bool
  index : Option IndexContent
  manifests : List (String × RecoveryManifest)
  archives : List String
deriving DecidableEq, Repr

/-- Lookup of `manifests/<id>.json` (`load_manifest`, `recovery.rs` lines
116-124); `none` models the read failing because the file is missing. -/
def lookupManifest (id : String) :
    List (String × RecoveryManifest) → Option RecoveryManifest
  | [] => none
  | (k, m) :: rest => if k = id then some m else lookupManifest id rest

/-- `RecoveryManager::initialize` (`recovery.rs` lines 65-82), called
`initStore` here: ensure `manifests/` and `archives/` exist
(`create_dir_all`), and write an empty index only when the index file is
absent. -/
def initStore (s : StoreState) : StoreState :=
  { s with
    manifestsDir := true
    archivesDir := true
    index :=
      match s.index with
      | none => some (.wellFormed [])
      | some i => some i }

/-- `create_manifest` (`recovery.rs` lines 85-97): fresh id derived from the
clock, no items, `retention_until = now + retention_days`.  Ticks are
days. -/
def create_manifest (now : Nat) (retention_days : Nat) : RecoveryManifest :=
  { id := toString now
    timestamp := now
    total_size := 0
    items := []
    retention_until := now + retention_days }

/-- `fs::write` of `manifests/<id>.json`: overwrite the entry or create
it. -/
def writeManifestFile (files : List (String × RecoveryManifest))
    (m : RecoveryManifest) : List (String × RecoveryManifest) :=
  match files with
  | [] => [(m.id, m)]
  | (k, old) :: rest =>
    if k = m.id then (k, m) :: rest else (k, old) :: writeManifestFile rest m

/-- `update_index` (`recovery.rs` lines 155-174): read the index if present,
fall back to a fresh empty index when missing or malformed
(`unwrap_or_else`), append the id unless already present, write back. -/
def update_index (s : StoreState) (id : String) : StoreState :=
  let current : List String :=
    match s.index with
    | some (.wellFormed l) => l
    | some .malformed => []
    | none => []
  { s with
    index := some (.wellFormed
      (if id ∈ current then current else current ++ [id])) }

/-- `save_manifest` (`recovery.rs` lines 100-113): write the manifest file,
then update the index. -/
def save_manifest (s : StoreState) (m : RecoveryManifest) : StoreState :=
  update_index { s with manifests := writeManifestFile s.manifests m } m.id

/-- `std::io::Error` outcomes relevant to the store. -/
inductive IoErr where
  | notFound
  | parse
  | removeFailed
deriving DecidableEq, Repr

/-- Stable insertion for the descending-timestamp sort of
`list_recoveries` (`recovery.rs` line 144, `sort_by(|a, b|
b.timestamp.cmp(&a.timestamp))`, a stable sort). -/
def insertByTimestamp (m : RecoveryManifest) :
    List RecoveryManifest → List RecoveryManifest
  | [] => [m]
  | x :: xs =>
    if m.timestamp < x.timestamp then x :: insertByTimestamp m xs
    else m :: x :: xs

/-- The descending-timestamp stable sort of `list_recoveries`. -/
def sortByTimestampDesc : List RecoveryManifest → List RecoveryManifest
  | [] => []
  | m :: ms => insertByTimestamp m (sortByTimestampDesc ms)

/-- `list_recoveries` (`recovery.rs` lines 127-147): empty when the index
file is absent; error when it fails to parse; otherwise load each indexed
manifest, silently skipping ids whose manifest is missing, and sort
newest-first. -/
def list_recoveries (s : StoreState) : Except IoErr (List RecoveryManifest) :=
  match s.index with
  | none => .ok []
  | some .malformed => .error .parse
  | some (.wellFormed ids) =>
    .ok (sortByTimestampDesc
      (ids.filterMap (fun id => lookupManifest id s.manifests)))

/-- Which removals fail: ids whose `archives/<id>` removal
(`fs::remove_dir_all`) fails, and ids whose `manifests/<id>.json` removal
(`fs::remove_file`) fails. -/
structure FailSpec where
  failDirs : List String
  failFiles : List String
deriving DecidableEq, Repr

def noFailures : FailSpec := ⟨[], []⟩

/-- `fs::remove_dir_all` of `archives/<id>` guarded by
`archive_dir.exists()` (`recovery.rs` lines 184-187), on the success
path. -/
def removeArchiveStep (id : String) (s : StoreState) : StoreState :=
  if id ∈ s.archives then
    { s with archives := s.archives.filter (fun a => decide (a ≠ id)) }
  else s

/-- `fs::remove_file` of `manifests/<id>.json` guarded by
`manifest_file.exists()` (`recovery.rs` lines 189-195), on the success
path. -/
def removeManifestStep (id : String) (s : StoreState) : StoreState :=
  if (lookupManifest id s.manifests).isSome then
    { s with manifests := s.manifests.filter (fun p => decide (p.1 ≠ id)) }
  else s

/-- The loop of `cleanup_expired` (`recovery.rs` lines 182-199) over the
listed manifests, threading the on-disk state (which persists even when an
error aborts the loop — the `?` operator).  For each expired manifest:
remove its archive directory if it exists (an induced failure aborts the
whole loop), then remove its manifest file if it exists (same), then record
the id. -/
def cleanupGo (fl : FailSpec) (now : Nat) :
    List RecoveryManifest → StoreState → List String →
      StoreState × Except IoErr (List String)
  | [], s, cleaned => (s, .ok cleaned)
  | m :: rest, s, cleaned =>
    if m.retention_until < now then
      if m.id ∈ s.archives ∧ m.id ∈ fl.failDirs then
        (s, .error .removeFailed)
      else
        if (lookupManifest m.id (removeArchiveStep m.id s).manifests).isSome
            ∧ m.id ∈ fl.failFiles then
          (removeArchiveStep m.id s, .error .removeFailed)
        else
          cleanupGo fl now rest
            (removeManifestStep m.id (removeArchiveStep m.id s))
            (cleaned ++ [m.id])
    else
      cleanupGo fl now rest s cleaned

/-- `cleanup_expired` (`recovery.rs` lines 177-211): list the recoveries,
run the removal loop, then — when anything was cleaned — rewrite the index
retaining only the ids not cleaned. -/
def cleanup_expired (fl : FailSpec) (now : Nat) (s : StoreState) :
    StoreState × Except IoErr (List String) :=
  match list_recoveries s with
  | .error e => (s, .error e)
  | .ok recoveries =>
    match cleanupGo fl now recoveries s [] with
    | (s', .error e) => (s', .error e)
    | (s', .ok cleaned) =>
      if cleaned.isEmpty then (s', .ok cleaned)
      else
        match s'.index with
        | none => (s', .error .notFound)
        | some .malformed => (s', .error .parse)
        | some (.wellFormed ids) =>
          ({ s' with index := some (.wellFormed
              (ids.filter (fun id => decide (id ∉ cleaned)))) },
            .ok cleaned)

/-- The manifests reachable through the index, in index order (what the
`cleanup_expired` loop iterates over, before sorting). -/
def listedManifests (s : StoreState) : List RecoveryManifest :=
  match s.index with
  | some (.wellFormed ids) =>
    ids.filterMap (fun id => lookupManifest id s.manifests)
  | _ => []

/-- The ids of the expired manifests of a list, in order. -/
def expiredIds (now : Nat) (ms : List RecoveryManifest) : List String :=
  (ms.filter (fun m => decide (m.retention_until < now))).map
    RecoveryManifest.id

lemma filter_congr_bool {α : Type} {p q : α → Bool} {l : List α}
    (h : ∀ a ∈ l, p a = q a) : l.filter p = l.filter q := by
  induction l with
  | nil => rfl
  | cons a t ih =>
    rw [List.filter_cons, List.filter_cons, h a (List.mem_cons_self _ _),
      ih (fun b hb => h b (List.mem_cons_of_mem _ hb))]

lemma filter_ne_of_not_mem {l : List String} {id : String} (h : id ∉ l) :
    l.filter (fun a => decide (a ≠ id)) = l := by
  induction l with
  | nil => rfl
  | cons a t ih =>
    have ha : decide (a ≠ id) = true :=
      decide_eq_true (fun heq => h (heq ▸ List.mem_cons_self _ _))
    rw [List.filter_cons, ha, if_pos rfl,
      ih (fun hm => h (List.mem_cons_of_mem _ hm))]

lemma lookupManifest_none_of_forall {id : String}
    {l : List (String × RecoveryManifest)} (h : ∀ p ∈ l, p.1 ≠ id) :
    lookupManifest id l = none := by
  induction l with
  | nil => rfl
  | cons p t ih =>
    obtain ⟨k, m⟩ := p
    rw [lookupManifest, if_neg (h (k, m) (List.mem_cons_self _ _))]
    exact ih (fun q hq => h q (List.mem_cons_of_mem _ hq))

lemma filter_key_ne_of_lookup_none {id : String}
    {l : List (String × RecoveryManifest)}
    (h : lookupManifest id l = none) :
    l.filter (fun p => decide (p.1 ≠ id)) = l := by
  induction l with
  | nil => rfl
  | cons p t ih =>
    obtain ⟨k, m⟩ := p
    rw [lookupManifest] at h
    by_cases hk : k = id
    · rw [if_pos hk] at h
      cases h
    · rw [if_neg hk] at h
      have hpred : decide ((k, m).1 ≠ id) = true := decide_eq_true hk
      rw [List.filter_cons, hpred, if_pos rfl, ih h]

lemma removeArchiveStep_spec (id : String) (s : StoreState) :
    (removeArchiveStep id s).archives =
        s.archives.filter (fun a => decide (a ≠ id)) ∧
      (removeArchiveStep id s).manifests = s.manifests ∧
      (removeArchiveStep id s).index = s.index := by
  unfold removeArchiveStep
  by_cases h : id ∈ s.archives
  · rw [if_pos h]
    exact ⟨rfl, rfl, rfl⟩
  · rw [if_neg h]
    exact ⟨(filter_ne_of_not_mem h).symm, rfl, rfl⟩

lemma removeManifestStep_spec (id : String) (s : StoreState) :
    (removeManifestStep id s).manifests =
        s.manifests.filter (fun p => decide (p.1 ≠ id)) ∧
      (removeManifestStep id s).archives = s.archives ∧
      (removeManifestStep id s).index = s.index := by
  unfold removeManifestStep
  by_cases h : (lookupManifest id s.manifests).isSome
  · rw [if_pos h]
    exact ⟨rfl, rfl, rfl⟩
  · have hnone : lookupManifest id s.manifests = none := by
      cases hl : lookupManifest id s.manifests
      · rfl
      · rw [hl] at h
        simp at h
    rw [if_neg h]
    exact ⟨(filter_key_ne_of_lookup_none hnone).symm, rfl, rfl⟩

lemma filter_str_comp (id : String) (R : List String) (l : List String) :
    (l.filter (fun a => decide (a ≠ id))).filter
        (fun a => decide (a ∉ R)) =
      l.filter (fun a => decide (a ∉ id :: R)) := by
  rw [filter_filter_bool]
  apply filter_congr_bool
  intro a _
  by_cases h1 : a = id <;> by_cases h2 : a ∈ R <;> simp [h1, h2]

lemma filter_man_comp (id : String) (R : List String)
    (l : List (String × RecoveryManifest)) :
    (l.filter (fun p => decide (p.1 ≠ id))).filter
        (fun p => decide (p.1 ∉ R)) =
      l.filter (fun p => decide (p.1 ∉ id :: R)) := by
  rw [filter_filter_bool]
  apply filter_congr_bool
  intro p _
  by_cases h1 : p.1 = id <;> by_cases h2 : p.1 ∈ R <;> simp [h1, h2]

lemma filter_str_nil (l : List String) :
    l.filter (fun a => decide (a ∉ ([] : List String))) = l := by
  induction l with
  | nil => rfl
  | cons a t ih => simp_all

lemma filter_man_nil (l : List (String × RecoveryManifest)) :
    l.filter (fun p => decide (p.1 ∉ ([] : List String))) = l := by
  induction l with
  | nil => rfl
  | cons p t ih => simp_all

lemma expiredIds_nil (now : Nat) : expiredIds now [] = [] := rfl

lemma expiredIds_cons_pos {now : Nat} {m : RecoveryManifest}
    (h : m.retention_until < now) (rest : List RecoveryManifest) :
    expiredIds now (m :: rest) = m.id :: expiredIds now rest := by
  simp [expiredIds, List.filter_cons, h]

lemma expiredIds_cons_neg {now : Nat} {m : RecoveryManifest}
    (h : ¬ m.retention_until < now) (rest : List RecoveryManifest) :
    expiredIds now (m :: rest) = expiredIds now rest := by
  simp [expiredIds, List.filter_cons, h]

/-- Closed form of the `cleanup_expired` loop on the success path: whatever
removal failures `fl` stipulates, if the loop returns `ok` then it cleaned
exactly the expired ids (in order) and the post-state has every expired
id's manifest file and archive directory removed, the index untouched. -/
lemma cleanupGo_ok (fl : FailSpec) (now : Nat) :
    ∀ (ms : List RecoveryManifest) (s s' : StoreState)
      (acc cl : List String),
      cleanupGo fl now ms s acc = (s', .ok cl) →
      cl = acc ++ expiredIds now ms ∧
      s'.manifests = s.manifests.filter
        (fun p => decide (p.1 ∉ expiredIds now ms)) ∧
      s'.archives = s.archives.filter
        (fun a => decide (a ∉ expiredIds now ms)) ∧
      s'.index = s.index := by
  intro ms
  induction ms with
  | nil =>
    intro s s' acc cl h
    rw [cleanupGo, Prod.mk.injEq] at h
    obtain ⟨hs, hok⟩ := h
    injection hok with hcl
    subst hs
    subst hcl
    refine ⟨by simp [expiredIds], ?_, ?_, rfl⟩
    · rw [expiredIds_nil, filter_man_nil]
    · rw [expiredIds_nil, filter_str_nil]
  | cons m rest ih =>
    intro s s' acc cl h
    by_cases hexp : m.retention_until < now
    · rw [cleanupGo, if_pos hexp] at h
      by_cases hf1 : m.id ∈ s.archives ∧ m.id ∈ fl.failDirs
      · rw [if_pos hf1, Prod.mk.injEq] at h
        exact absurd h.2 (by simp)
      · rw [if_neg hf1] at h
        by_cases hf2 :
            (lookupManifest m.id (removeArchiveStep m.id s).manifests).isSome
              ∧ m.id ∈ fl.failFiles
        · rw [if_pos hf2, Prod.mk.injEq] at h
          exact absurd h.2 (by simp)
        · rw [if_neg hf2] at h
          obtain ⟨hcl, hman, harch, hidx0⟩ := ih _ _ _ _ h
          obtain ⟨ha1, ha2, ha3⟩ := removeArchiveStep_spec m.id s
          obtain ⟨hm1, hm2, hm3⟩ :=
            removeManifestStep_spec m.id (removeArchiveStep m.id s)
          rw [expiredIds_cons_pos hexp]
          refine ⟨?_, ?_, ?_, ?_⟩
          · rw [hcl, List.append_assoc]
            rfl
          · rw [hman, hm1, ha2, filter_man_comp]
          · rw [harch, hm2, ha1, filter_str_comp]
          · rw [hidx0, hm3, ha3]
    · rw [cleanupGo, if_neg hexp] at h
      obtain ⟨hcl, hman, harch, hidx0⟩ := ih _ _ _ _ h
      rw [expiredIds_cons_neg hexp]
      exact ⟨hcl, hman, harch, hidx0⟩

lemma mem_insertByTimestamp {a m : RecoveryManifest}
    {l : List RecoveryManifest} :
    a ∈ insertByTimestamp m l ↔ a = m ∨ a ∈ l := by
  induction l with
  | nil => simp [insertByTimestamp]
  | cons x xs ih =>
    rw [insertByTimestamp]
    by_cases h : m.timestamp < x.timestamp
    · rw [if_pos h]
      simp only [List.mem_cons, ih]
      tauto
    · rw [if_neg h]
      simp only [List.mem_cons]

lemma mem_sortByTimestampDesc {a : RecoveryManifest}
    {l : List RecoveryManifest} :
    a ∈ sortByTimestampDesc l ↔ a ∈ l := by
  induction l with
  | nil => simp [sortByTimestampDesc]
  | cons m ms ih =>
    rw [sortByTimestampDesc, mem_insertByTimestamp]
    simp [ih]

lemma mem_expiredIds {now : Nat} {L : List RecoveryManifest} {id : String} :
    id ∈ expiredIds now L ↔
      ∃ m ∈ L, m.retention_until < now ∧ m.id = id := by
  unfold expiredIds
  constructor
  · intro h
    obtain ⟨m, hm, rfl⟩ := List.mem_map.mp h
    have := List.mem_filter.mp hm
    exact ⟨m, this.1, by simpa using this.2, rfl⟩
  · rintro ⟨m, hmL, hexp, rfl⟩
    exact List.mem_map.mpr ⟨m,
      List.mem_filter.mpr ⟨hmL, by simpa using hexp⟩, rfl⟩

lemma lookupManifest_some_mem {id : String}
    {l : List (String × RecoveryManifest)} {m : RecoveryManifest}
    (h : lookupManifest id l = some m) : (id, m) ∈ l := by
  induction l with
  | nil => cases h
  | cons p t ih =>
    obtain ⟨k, m'⟩ := p
    rw [lookupManifest] at h
    by_cases hk : k = id
    · rw [if_pos hk] at h
      injection h with h
      subst hk
      subst h
      exact List.mem_cons_self _ _
    · rw [if_neg hk] at h
      exact List.mem_cons_of_mem _ (ih h)

lemma lookup_filter_of_mem {id : String} {R : List String}
    {l : List (String × RecoveryManifest)} (h : id ∈ R) :
    lookupManifest id (l.filter (fun p => decide (p.1 ∉ R))) = none := by
  apply lookupManifest_none_of_forall
  intro p hp
  have hpR : p.1 ∉ R := by
    have := List.of_mem_filter hp
    simpa using this
  intro heq
  apply hpR
  rw [heq]
  exact h

lemma lookup_filter_of_not_mem {id : String} {R : List String}
    {l : List (String × RecoveryManifest)} (h : id ∉ R) :
    lookupManifest id (l.filter (fun p => decide (p.1 ∉ R))) =
      lookupManifest id l := by
  induction l with
  | nil => rfl
  | cons p t ih =>
    obtain ⟨k, m⟩ := p
    by_cases hk : k = id
    · subst hk
      have hpred : decide ((k, m).1 ∉ R) = true := decide_eq_true h
      rw [List.filter_cons, hpred, if_pos rfl, lookupManifest,
        lookupManifest, if_pos rfl, if_pos rfl]
    · by_cases hkR : k ∈ R
      · have hpred : decide ((k, m).1 ∉ R) = false := by
          simp [hkR]
        rw [List.filter_cons, hpred]
        have : (if false = true then (k, m) ::
            t.filter (fun p => decide (p.1 ∉ R))
          else t.filter (fun p => decide (p.1 ∉ R))) =
            t.filter (fun p => decide (p.1 ∉ R)) := by
          rw [if_neg]
          simp
        rw [this, ih, lookupManifest, if_neg hk]
      · have hpred : decide ((k, m).1 ∉ R) = true := decide_eq_true hkR
        rw [List.filter_cons, hpred, if_pos rfl, lookupManifest,
          lookupManifest, if_neg hk, if_neg hk, ih]

/-- `cleanup_expired` on the success path, in closed form: the returned
ids are the expired ids of the listed manifests, every cleaned id's
manifest file and archive directory are gone from the post-state, and the
index (when anything was cleaned) retains exactly the surviving ids. -/
lemma cleanup_expired_ok {fl : FailSpec} {now : Nat} {s s' : StoreState}
    {cleaned : List String}
    (h : cleanup_expired fl now s = (s', .ok cleaned)) :
    ∃ listed, list_recoveries s = .ok listed ∧
      cleaned = expiredIds now listed ∧
      s'.manifests = s.manifests.filter
        (fun p => decide (p.1 ∉ cleaned)) ∧
      s'.archives = s.archives.filter (fun a => decide (a ∉ cleaned)) ∧
      ((cleaned = [] ∧ s'.index = s.index) ∨
        (∃ ids, s.index = some (.wellFormed ids) ∧
          s'.index = some (.wellFormed
            (ids.filter (fun id => decide (id ∉ cleaned)))))) := by
  cases hlr : list_recoveries s with
  | error e =>
    simp only [cleanup_expired, hlr] at h
    rw [Prod.mk.injEq] at h
    exact absurd h.2 (by simp)
  | ok listed =>
    refine ⟨listed, rfl, ?_⟩
    cases hgo : cleanupGo fl now listed s [] with
    | mk s₀ r₀ =>
      cases r₀ with
      | error e =>
        simp only [cleanup_expired, hlr, hgo] at h
        rw [Prod.mk.injEq] at h
        exact absurd h.2 (by simp)
      | ok cl₀ =>
        obtain ⟨hcl, hman, harch, hidx0⟩ :=
          cleanupGo_ok fl now listed s s₀ [] cl₀ hgo
        rw [List.nil_append] at hcl
        by_cases hemp : cl₀.isEmpty
        · have hclnil : cl₀ = [] := by
            cases cl₀ with
            | nil => rfl
            | cons a t => simp [List.isEmpty] at hemp
          simp only [cleanup_expired, hlr, hgo, if_pos hemp] at h
          rw [Prod.mk.injEq] at h
          obtain ⟨hs, hok⟩ := h
          injection hok with hok
          subst hs
          subst hok
          refine ⟨hcl, ?_, ?_, Or.inl ⟨hclnil, hidx0⟩⟩
          · rw [hman, ← hcl]
          · rw [harch, ← hcl]
        · -- something was cleaned; the index is rewritten
          have hclne : cl₀ ≠ [] := by
            intro hnil
            rw [hnil] at hemp
            exact hemp rfl
          -- the index of s must be well-formed: otherwise nothing is listed
          cases hsi : s.index with
          | none =>
            rw [list_recoveries, hsi] at hlr
            injection hlr with hlr
            rw [← hlr] at hcl
            exact absurd (hcl.trans (expiredIds_nil now)) hclne
          | some i =>
            cases i with
            | malformed =>
              rw [list_recoveries, hsi] at hlr
              cases hlr
            | wellFormed ids =>
              have hidx0' : s₀.index = some (.wellFormed ids) := by
                rw [hidx0, hsi]
              simp only [cleanup_expired, hlr, hgo, if_neg hemp, hidx0']
                at h
              rw [Prod.mk.injEq] at h
              obtain ⟨hs, hok⟩ := h
              injection hok with hok
              subst hok
              have hs' : s' = { s₀ with index := some (.wellFormed
                  (ids.filter (fun id => decide (id ∉ cl₀)))) } := hs.symm
              refine ⟨hcl, ?_, ?_, Or.inr ⟨ids, rfl, ?_⟩⟩
              · rw [hs']
                show s₀.manifests = _
                rw [hcl]
                exact hman
              · rw [hs']
                show s₀.archives = _
                rw [hcl]
                exact harch
              · rw [hs']

/-- Claim C5: when `cleanup_expired` completes successfully it has deleted
the archive directory and manifest file of exactly those indexed manifests
whose `retention_until` is strictly before now, returns their ids, leaves
manifests with `retention_until ≥ now` untouched, and afterwards
`list_recoveries` no longer includes any returned id.  `hwf` states that
each `manifests/<id>.json` file holds the manifest named by the file, as
`save_manifest` guarantees. -/
theorem cleanup_expired_spec (fl : FailSpec) (now : Nat)
    (s s' : StoreState) (cleaned : List String) (ids : List String)
    (hidx : s.index = some (.wellFormed ids))
    (hwf : ∀ p ∈ s.manifests, p.2.id = p.1)
    (hok : cleanup_expired fl now s = (s', .ok cleaned)) :
    (∀ m ∈ listedManifests s, (m.retention_until < now ↔ m.id ∈ cleaned))
    ∧ (∀ m ∈ listedManifests s, m.retention_until < now →
        lookupManifest m.id s'.manifests = none ∧ m.id ∉ s'.archives)
    ∧ (∀ m ∈ listedManifests s, ¬ m.retention_until < now →
        lookupManifest m.id s'.manifests = lookupManifest m.id s.manifests ∧
          (m.id ∈ s'.archives ↔ m.id ∈ s.archives))
    ∧ (∀ l', list_recoveries s' = .ok l' → ∀ m' ∈ l', m'.id ∉ cleaned) := by
  obtain ⟨listed, hlr, hclean, hman, harch, hidxcase⟩ :=
    cleanup_expired_ok hok
  have hlr' : list_recoveries s = .ok (sortByTimestampDesc
      (ids.filterMap (fun id => lookupManifest id s.manifests))) := by
    rw [list_recoveries, hidx]
  have hlisted : listed = sortByTimestampDesc
      (ids.filterMap (fun id => lookupManifest id s.manifests)) := by
    rw [hlr'] at hlr
    injection hlr with hlr
    exact hlr.symm
  have hlm : listedManifests s =
      ids.filterMap (fun id => lookupManifest id s.manifests) := by
    rw [listedManifests, hidx]
  have hmemlisted : ∀ m : RecoveryManifest,
      m ∈ listed ↔ m ∈ listedManifests s := by
    intro m
    rw [hlisted, mem_sortByTimestampDesc, hlm]
  have hlook : ∀ m ∈ listedManifests s,
      lookupManifest m.id s.manifests = some m := by
    intro m hm
    rw [hlm] at hm
    obtain ⟨id₀, hid₀, hlk⟩ := List.mem_filterMap.mp hm
    have hmid : m.id = id₀ := hwf (id₀, m) (lookupManifest_some_mem hlk)
    rw [hmid]
    exact hlk
  have hiff : ∀ m ∈ listedManifests s,
      (m.retention_until < now ↔ m.id ∈ cleaned) := by
    intro m hm
    constructor
    · intro hexp
      rw [hclean]
      exact mem_expiredIds.mpr ⟨m, (hmemlisted m).mpr hm, hexp, rfl⟩
    · intro hid
      rw [hclean] at hid
      obtain ⟨m', hm'listed, hexp', hmid⟩ := mem_expiredIds.mp hid
      have hm'l : m' ∈ listedManifests s := (hmemlisted m').mp hm'listed
      have h1 := hlook m hm
      have h2 := hlook m' hm'l
      rw [hmid, h1] at h2
      injection h2 with h2
      rw [h2]
      exact hexp'
  refine ⟨hiff, ?_, ?_, ?_⟩
  · intro m hm hexp
    have hid : m.id ∈ cleaned := (hiff m hm).mp hexp
    constructor
    · rw [hman]
      exact lookup_filter_of_mem hid
    · rw [harch]
      intro hmem
      have hnm := List.of_mem_filter hmem
      simp only [decide_eq_true_eq] at hnm
      exact hnm hid
  · intro m hm hnexp
    have hid : m.id ∉ cleaned := fun hc => hnexp ((hiff m hm).mpr hc)
    constructor
    · rw [hman]
      exact lookup_filter_of_not_mem hid
    · rw [harch]
      constructor
      · intro hmem
        exact List.mem_of_mem_filter hmem
      · intro hmem
        exact List.mem_filter.mpr ⟨hmem, decide_eq_true hid⟩
  · intro l' hl' m' hm'
    rcases hidxcase with ⟨hclnil, _⟩ | ⟨ids₀, _, hsidx⟩
    · rw [hclnil]
      exact List.not_mem_nil _
    · rw [list_recoveries, hsidx] at hl'
      injection hl' with hl'
      rw [← hl', mem_sortByTimestampDesc] at hm'
      obtain ⟨id₀, hid₀, hlk⟩ := List.mem_filterMap.mp hm'
      have hid₀nc : id₀ ∉ cleaned := by
        have := List.of_mem_filter hid₀
        simpa using this
      have hmem' : (id₀, m') ∈ s'.manifests := lookupManifest_some_mem hlk
      have hsub : (id₀, m') ∈ s.manifests := by
        rw [hman] at hmem'
        exact List.mem_of_mem_filter hmem'
      have hmid : m'.id = id₀ := hwf (id₀, m') hsub
      rw [hmid]
      exact hid₀nc

def c5ManifestA : RecoveryManifest := ⟨"A", 10, 0, [], 1⟩

def c5ManifestB : RecoveryManifest := ⟨"B", 5, 0, [], 9⟩

def c5Store : StoreState :=
  ⟨true, true, some (.wellFormed ["A", "B"]),
   [("A", c5ManifestA), ("B", c5ManifestB)], ["A", "B"]⟩

def c5StoreAfter : StoreState :=
  ⟨true, true, some (.wellFormed ["B"]), [("B", c5ManifestB)], ["B"]⟩

/-- Witness for C5: at time 5, manifest A (retention until 1) is expired and
manifest B (retention until 9) is not; cleanup removes exactly A. -/
theorem cleanup_expired_spec_witness :
    c5Store.index = some (.wellFormed ["A", "B"]) ∧
    (∀ p ∈ c5Store.manifests, p.2.id = p.1) ∧
    cleanup_expired noFailures 5 c5Store = (c5StoreAfter, .ok ["A"]) ∧
    ((∀ m ∈ listedManifests c5Store,
        (m.retention_until < 5 ↔ m.id ∈ ["A"]))
    ∧ (∀ m ∈ listedManifests c5Store, m.retention_until < 5 →
        lookupManifest m.id c5StoreAfter.manifests = none ∧
          m.id ∉ c5StoreAfter.archives)
    ∧ (∀ m ∈ listedManifests c5Store, ¬ m.retention_until < 5 →
        lookupManifest m.id c5StoreAfter.manifests =
            lookupManifest m.id c5Store.manifests ∧
          (m.id ∈ c5StoreAfter.archives ↔ m.id ∈ c5Store.archives))
    ∧ (∀ l', list_recoveries c5StoreAfter = .ok l' →
        ∀ m' ∈ l', m'.id ∉ ["A"])) :=
  ⟨rfl, by decide, by decide,
    cleanup_expired_spec noFailures 5 c5Store c5StoreAfter ["A"]
      ["A", "B"] rfl (by decide) (by decide)⟩

/-- Claim C6 (amended): a failure to delete one expired manifest's files
aborts `cleanup_expired` with an error, so the remaining expired manifests
are not processed (`cleanup_expired_not_best_effort`); an id appears in the
returned cleaned list — produced only when the whole run succeeds — only
with that manifest's archive directory and manifest file actually removed
in the resulting state. -/
theorem cleanup_expired_cleaned_removed (fl : FailSpec) (now : Nat)
    (s s' : StoreState) (cleaned : List String)
    (hok : cleanup_expired fl now s = (s', .ok cleaned)) :
    ∀ id ∈ cleaned,
      lookupManifest id s'.manifests = none ∧ id ∉ s'.archives := by
  obtain ⟨listed, -, -, hman, harch, -⟩ := cleanup_expired_ok hok
  intro id hid
  constructor
  · rw [hman]
    exact lookup_filter_of_mem hid
  · rw [harch]
    intro hmem
    have hnm := List.of_mem_filter hmem
    simp only [decide_eq_true_eq] at hnm
    exact hnm hid

/-- Witness for C6 (amended): a successful run cleaning manifest A; the
induced failures name an id that never occurs. -/
theorem cleanup_expired_cleaned_removed_witness :
    cleanup_expired ⟨["Z"], ["Z"]⟩ 5 c5Store = (c5StoreAfter, .ok ["A"]) ∧
    (∀ id ∈ ["A"],
      lookupManifest id c5StoreAfter.manifests = none ∧
        id ∉ c5StoreAfter.archives) :=
  ⟨by decide,
    cleanup_expired_cleaned_removed ⟨["Z"], ["Z"]⟩ 5 c5Store c5StoreAfter
      ["A"] (by decide)⟩

/-- Claim C7: `initialize` is idempotent — repeating it changes nothing
further; it marks both directories as existing, creates an empty index only
when the index file is absent, never overwrites an existing index file, and
loses no data (manifests and archives untouched), so no duplicate index
entries can arise from it. -/
theorem initStore_idempotent (s : StoreState) :
    initStore (initStore s) = initStore s
    ∧ (∀ i, s.index = some i → (initStore s).index = some i)
    ∧ (s.index = none →
        (initStore s).index = some (.wellFormed []) ∧
          ([] : List String).Nodup)
    ∧ (initStore s).manifestsDir = true
    ∧ (initStore s).archivesDir = true
    ∧ (initStore s).manifests = s.manifests
    ∧ (initStore s).archives = s.archives := by
  refine ⟨?_, ?_, ?_, ?_, ?_, ?_, ?_⟩ <;>
    cases h : s.index <;> simp [initStore, h]

/-- Witness for C7 at a concrete store with an existing index. -/
theorem initStore_idempotent_witness :
    (initStore (initStore
        ⟨false, false, some (.wellFormed ["x"]), [], []⟩) =
      initStore ⟨false, false, some (.wellFormed ["x"]), [], []⟩)
    ∧ (∀ i, (⟨false, false, some (.wellFormed ["x"]), [], []⟩ :
          StoreState).index = some i →
        (initStore ⟨false, false, some (.wellFormed ["x"]), [], []⟩).index =
          some i)
    ∧ ((⟨false, false, some (.wellFormed ["x"]), [], []⟩ :
          StoreState).index = none →
        (initStore ⟨false, false, some (.wellFormed ["x"]), [], []⟩).index =
            some (.wellFormed []) ∧
          ([] : List String).Nodup)
    ∧ (initStore
        ⟨false, false, some (.wellFormed ["x"]), [], []⟩).manifestsDir = true
    ∧ (initStore
        ⟨false, false, some (.wellFormed ["x"]), [], []⟩).archivesDir = true
    ∧ (initStore ⟨false, false, some (.wellFormed ["x"]), [], []⟩).manifests =
        (⟨false, false, some (.wellFormed ["x"]), [], []⟩ :
          StoreState).manifests
    ∧ (initStore ⟨false, false, some (.wellFormed ["x"]), [], []⟩).archives =
        (⟨false, false, some (.wellFormed ["x"]), [], []⟩ :
          StoreState).archives :=
  initStore_idempotent ⟨false, false, some (.wellFormed ["x"]), [], []⟩

/-- Claim C10: a malformed index is silently replaced by `save_manifest`
with a fresh index holding only the saved id (previous ids discarded, no
error reported — the embedding of `update_index` is total); with a
well-formed index already containing the id, the id list is unchanged. -/
theorem save_manifest_index (s : StoreState) (m : RecoveryManifest) :
    (s.index = some .malformed →
      (save_manifest s m).index = some (.wellFormed [m.id]))
    ∧ (∀ l, s.index = some (.wellFormed l) → m.id ∈ l →
        (save_manifest s m).index = some (.wellFormed l)) := by
  constructor
  · intro h
    simp [save_manifest, update_index, h]
  · intro l hl hm
    simp [save_manifest, update_index, hl, hm]

def c10Manifest : RecoveryManifest := ⟨"2026-01-02_00-00-00", 2, 0, [], 9⟩

/-- Witness for C10: a malformed index store and a well-formed index store
that already lists the manifest. -/
theorem save_manifest_index_witness :
    ((⟨true, true, some .malformed, [], []⟩ : StoreState).index =
        some .malformed ∧
      (save_manifest ⟨true, true, some .malformed, [], []⟩
          c10Manifest).index =
        some (.wellFormed [c10Manifest.id])) ∧
    ((⟨true, true,
        some (.wellFormed ["2026-01-01_00-00-00", "2026-01-02_00-00-00"]),
        [], []⟩ : StoreState).index =
      some (.wellFormed ["2026-01-01_00-00-00", "2026-01-02_00-00-00"]) ∧
      c10Manifest.id ∈ ["2026-01-01_00-00-00", "2026-01-02_00-00-00"] ∧
      (save_manifest
          ⟨true, true,
            some (.wellFormed
              ["2026-01-01_00-00-00", "2026-01-02_00-00-00"]), [], []⟩
          c10Manifest).index =
        some (.wellFormed ["2026-01-01_00-00-00", "2026-01-02_00-00-00"])) :=
  ⟨⟨rfl, (save_manifest_index ⟨true, true, some .malformed, [], []⟩
      c10Manifest).1 rfl⟩,
   ⟨rfl, by decide,
    (save_manifest_index
        ⟨true, true,
          some (.wellFormed ["2026-01-01_00-00-00", "2026-01-02_00-00-00"]),
          [], []⟩ c10Manifest).2 _ rfl (by decide)⟩⟩

def c6ManifestA : RecoveryManifest := ⟨"A", 10, 0, [], 1⟩

def c6ManifestB : RecoveryManifest := ⟨"B", 5, 0, [], 2⟩

def c6Store : StoreState :=
  { manifestsDir := true
    archivesDir := true
    index := some (.wellFormed ["A", "B"])
    manifests := [("A", c6ManifestA), ("B", c6ManifestB)]
    archives := ["A", "B"] }

/-- Claim C6 counterexample: at time 5 both manifests A and B are expired;
a failure to remove A's archive directory makes `cleanup_expired` abort
with an error — B is never processed (its manifest file and archive
directory survive) and no id is reported cleaned.  The per-manifest loop is
not best-effort: the `?` on `remove_dir_all`/`remove_file` propagates. -/
theorem cleanup_expired_not_best_effort :
    cleanup_expired ⟨["A"], []⟩ 5 c6Store =
      (c6Store, .error .removeFailed) ∧
    c6ManifestA.retention_until < 5 ∧
    c6ManifestB.retention_until < 5 ∧
    lookupManifest "B" c6Store.manifests = some c6ManifestB ∧
    "B" ∈ c6Store.archives := by decide

/-- The concrete filesystem refuting claim C1: `/tmp` holds one regular
file of 100 bytes. -/
def c1FsState : FsState :=
  ⟨[("/tmp", [⟨"/tmp/junk.log", true, 100⟩]), ("/var/tmp", [])]⟩

/-! ## Archive / restore round trip (claim C2)

The CLI (`dragonfly-cli/src/commands/recover.rs` lines 85 and 100) calls
`manager.restore_recovery(&recovery_id)`, and the spec's §4.4 describes
`ArchiveOperator::archive`, but neither function exists in the sources —
only their caller and the spec.  Both are therefore modelled from the spec
below, over a filesystem modelled as a path-to-bytes association list. -/

/-- Lookup of a file's bytes in the modelled filesystem. -/
def fsLookup (p : String) : List (String × List Nat) → Option (List Nat)
  | [] => none
  | (q, b) :: rest => if q = p then some b else fsLookup p rest

/-- Deletion of a path. -/
def fsRemove (p : String) (fs : List (String × List Nat)) :
    List (String × List Nat) :=
  fs.filter (fun e => decide (e.1 ≠ p))

/-- Creation (or overwrite) of a file. -/
def fsInsert (p : String) (b : List Nat)
    (fs : List (String × List Nat)) : List (String × List Nat) :=
  (p, b) :: fsRemove p fs

/-- The SHA-256 digest of file bytes, idealized collision-free and modelled
by the bytes themselves (as with the detector's digest). -/
def sha256 (bytes : List Nat) : List Nat := bytes

/-- `archives/<manifest.id>/<original path>`: the archive location, keeping
the original path structure to disambiguate same-named files. -/
def archPath (mid p : String) : String := "archives/" ++ mid ++ "/" ++ p

/-- Modelled from the spec: `ArchiveOperator::archive` is absent from the
sources.  §4.4: moves (not copies) the file from its original location into
`archives/<manifest.id>/`, preserving the path structure, computes its
checksum reflecting content at archive time, appends the resulting
`RecoveryItem` to the manifest and returns it; fails (`none`) when the
original cannot be read. -/
def archiveFile (fs : List (String × List Nat)) (m : RecoveryManifest)
    (path category source : String) (can_regenerate : Bool) :
    Option (List (String × List Nat) × RecoveryManifest × RecoveryItem) :=
  match fsLookup path fs with
  | none => none
  | some bytes =>
    let item : RecoveryItem :=
      { original_path := path
        archive_path := archPath m.id path
        size := bytes.length
        checksum := sha256 bytes
        category := category
        source := source
        can_regenerate := can_regenerate }
    some (fsInsert item.archive_path bytes (fsRemove path fs),
      { m with
        items := m.items ++ [item]
        total_size := m.total_size + bytes.length },
      item)

/-- One cleanup run archiving a list of files into one manifest. -/
def archiveAll (fs : List (String × List Nat)) (m : RecoveryManifest) :
    List String → Option (List (String × List Nat) × RecoveryManifest)
  | [] => some (fs, m)
  | p :: rest =>
    match archiveFile fs m p "cache" "cleaner" false with
    | none => none
    | some (fs', m', _) => archiveAll fs' m' rest

/-- Modelled from the spec: the per-item loop of `restore_recovery`.  §4.4:
for each item move the archived copy back to `original_path`, verifying the
checksum before restoring; a mismatch (or unreadable archived copy) is a
non-fatal per-item error — skip the item, continue the others.  Returns the
count and total bytes restored together with the resulting filesystem. -/
def restoreItems : List RecoveryItem → List (String × List Nat) →
    Nat → Nat → Nat × Nat × List (String × List Nat)
  | [], fs, c, b => (c, b, fs)
  | it :: rest, fs, c, b =>
    match fsLookup it.archive_path fs with
    | none => restoreItems rest fs c b
    | some bytes =>
      if sha256 bytes = it.checksum then
        restoreItems rest
          (fsInsert it.original_path bytes (fsRemove it.archive_path fs))
          (c + 1) (b + it.size)
      else
        restoreItems rest fs c b

/-- Modelled from the spec: `RecoveryManager::restore_recovery`, called by
`handle_recover_restore` (`recover.rs` lines 85 and 100) but absent from
the sources.  §4.4: loads the manifest (fails as a whole only if that
fails), then restores the items. -/
def restore_recovery (s : StoreState) (fs : List (String × List Nat))
    (recovery_id : String) :
    Except Error (Nat × Nat × List (String × List Nat)) :=
  match lookupManifest recovery_id s.manifests with
  | none => .error (.NotFound recovery_id)
  | some m => .ok (restoreItems m.items fs 0 0)

lemma archPath_inj {mid p q : String}
    (h : archPath mid p = archPath mid q) : p = q := by
  unfold archPath at h
  have h2 := congrArg String.data h
  simp only [String.data_append] at h2
  have h3 : p.data = q.data := by simpa using h2
  calc p = String.mk p.data := rfl
    _ = String.mk q.data := by rw [h3]
    _ = q := rfl

lemma fsLookup_fsRemove_ne {p q : String} (h : q ≠ p)
    (fs : List (String × List Nat)) :
    fsLookup q (fsRemove p fs) = fsLookup q fs := by
  induction fs with
  | nil => rfl
  | cons e rest ih =>
    obtain ⟨r, b⟩ := e
    by_cases hr : r = p
    · have hpred : decide ((r, b).1 ≠ p) = false := by simp [hr]
      rw [fsRemove, List.filter_cons, hpred]
      have hred : (if (false = true) then (r, b) ::
          List.filter (fun e => decide (e.1 ≠ p)) rest
        else List.filter (fun e => decide (e.1 ≠ p)) rest) =
          List.filter (fun e => decide (e.1 ≠ p)) rest := by
        rw [if_neg]
        simp
      rw [hred]
      have : fsLookup q ((r, b) :: rest) = fsLookup q rest := by
        rw [fsLookup, if_neg (fun heq => h (by rw [← heq]; exact hr))]
      rw [this]
      exact ih
    · have hpred : decide ((r, b).1 ≠ p) = true := decide_eq_true hr
      rw [fsRemove, List.filter_cons, hpred, if_pos rfl]
      by_cases hrq : r = q
      · rw [fsLookup, if_pos hrq, fsLookup, if_pos hrq]
      · rw [fsLookup, if_neg hrq, fsLookup, if_neg hrq]
        exact ih

lemma fsLookup_fsInsert_self (p : String) (b : List Nat)
    (fs : List (String × List Nat)) :
    fsLookup p (fsInsert p b fs) = some b := by
  rw [fsInsert, fsLookup, if_pos rfl]

lemma fsLookup_fsInsert_ne {p q : String} (h : q ≠ p) (b : List Nat)
    (fs : List (String × List Nat)) :
    fsLookup q (fsInsert p b fs) = fsLookup q fs := by
  rw [fsInsert, fsLookup, if_neg (fun heq => h heq.symm)]
  exact fsLookup_fsRemove_ne h fs

lemma lookupManifest_writeManifestFile
    (l : List (String × RecoveryManifest)) (m : RecoveryManifest) :
    lookupManifest m.id (writeManifestFile l m) = some m := by
  induction l with
  | nil => rw [writeManifestFile, lookupManifest, if_pos rfl]
  | cons p t ih =>
    obtain ⟨k, m'⟩ := p
    by_cases hk : k = m.id
    · rw [writeManifestFile, if_pos hk, lookupManifest, if_pos hk]
    · rw [writeManifestFile, if_neg hk, lookupManifest, if_neg hk, ih]

lemma save_manifest_manifests (s : StoreState) (m : RecoveryManifest) :
    (save_manifest s m).manifests = writeManifestFile s.manifests m := rfl

/-- Paths that are no item's original or archive path are untouched by the
restore loop. -/
lemma restoreItems_preserved :
    ∀ (items : List RecoveryItem) (fs : List (String × List Nat))
      (c b : Nat) (r : String),
      (∀ it ∈ items, r ≠ it.original_path ∧ r ≠ it.archive_path) →
      fsLookup r (restoreItems items fs c b).2.2 = fsLookup r fs := by
  intro items
  induction items with
  | nil => intro fs c b r _; rfl
  | cons it rest ih =>
    intro fs c b r h
    obtain ⟨hro, hra⟩ := h it (List.mem_cons_self _ _)
    have hrest := fun it' hit' => h it' (List.mem_cons_of_mem _ hit')
    cases hlk : fsLookup it.archive_path fs with
    | none =>
      simp only [restoreItems, hlk]
      exact ih fs c b r hrest
    | some bytes =>
      by_cases hck : sha256 bytes = it.checksum
      · simp only [restoreItems, hlk]
        rw [if_pos hck, ih _ _ _ r hrest, fsLookup_fsInsert_ne hro,
          fsLookup_fsRemove_ne hra]
      · simp only [restoreItems, hlk]
        rw [if_neg hck]
        exact ih fs c b r hrest

/-- Restore correctness: when every item's archived copy is present with a
matching checksum, paths are pairwise distinct and originals are disjoint
from archive locations, the restore loop puts every item's archived bytes
back at its original path. -/
lemma restoreItems_spec :
    ∀ (items : List RecoveryItem) (fs : List (String × List Nat))
      (c b : Nat),
      (∀ it ∈ items, ∃ bts, fsLookup it.archive_path fs = some bts ∧
        sha256 bts = it.checksum) →
      (items.map RecoveryItem.original_path).Nodup →
      (items.map RecoveryItem.archive_path).Nodup →
      (∀ it₁ ∈ items, ∀ it₂ ∈ items,
        it₁.original_path ≠ it₂.archive_path) →
      ∀ it ∈ items, ∀ bts, fsLookup it.archive_path fs = some bts →
        fsLookup it.original_path (restoreItems items fs c b).2.2 =
          some bts := by
  intro items
  induction items with
  | nil => intro fs c b _ _ _ _ it hit; cases hit
  | cons it₀ rest ih =>
    intro fs c b hpres hnodo hnoda hdisj it hit bts hbts
    obtain ⟨bts₀, hlk₀, hck₀⟩ := hpres it₀ (List.mem_cons_self _ _)
    have hdo : it₀.original_path ∉ rest.map RecoveryItem.original_path :=
      (List.nodup_cons.mp hnodo).1
    have hda : it₀.archive_path ∉ rest.map RecoveryItem.archive_path :=
      (List.nodup_cons.mp hnoda).1
    -- the head is always restored
    simp only [restoreItems, hlk₀]
    rw [if_pos hck₀]
    have hpres' : ∀ it' ∈ rest, ∃ b', fsLookup it'.archive_path
        (fsInsert it₀.original_path bts₀
          (fsRemove it₀.archive_path fs)) = some b' ∧
        sha256 b' = it'.checksum := by
      intro it' hit'
      obtain ⟨b', hb', hcb'⟩ := hpres it' (List.mem_cons_of_mem _ hit')
      refine ⟨b', ?_, hcb'⟩
      rw [fsLookup_fsInsert_ne, fsLookup_fsRemove_ne]
      · exact hb'
      · intro heq
        exact hda (heq ▸ List.mem_map.mpr ⟨it', hit', rfl⟩)
      · intro heq
        exact hdisj it₀ (List.mem_cons_self _ _)
          it' (List.mem_cons_of_mem _ hit') heq.symm
    rcases List.mem_cons.mp hit with rfl | hit'
    · -- the target is the head item
      have h2 : bts = bts₀ := Option.some_inj.mp (hbts.symm.trans hlk₀)
      subst h2
      have hcond : ∀ it' ∈ rest,
          it.original_path ≠ it'.original_path ∧
            it.original_path ≠ it'.archive_path := by
        intro it' hit'
        constructor
        · intro heq
          exact hdo (heq ▸ List.mem_map.mpr ⟨it', hit', rfl⟩)
        · intro heq
          exact hdisj it (List.mem_cons_self _ _) it'
            (List.mem_cons_of_mem _ hit') heq
      exact (restoreItems_preserved rest _ _ _ _ hcond).trans
        (fsLookup_fsInsert_self _ _ _)
    · -- the target is in the tail
      have hbts' : fsLookup it.archive_path
          (fsInsert it₀.original_path bts₀
            (fsRemove it₀.archive_path fs)) = some bts := by
        rw [fsLookup_fsInsert_ne, fsLookup_fsRemove_ne]
        · exact hbts
        · intro heq
          exact hda (heq ▸ List.mem_map.mpr ⟨it, hit', rfl⟩)
        · intro heq
          exact hdisj it₀ (List.mem_cons_self _ _)
            it (List.mem_cons_of_mem _ hit') heq.symm
      exact ih _ _ _ hpres' (List.nodup_cons.mp hnodo).2
        (List.nodup_cons.mp hnoda).2
        (fun a ha b hb => hdisj a (List.mem_cons_of_mem _ ha)
          b (List.mem_cons_of_mem _ hb))
        it hit' bts hbts'

/-- Archive correctness: archiving a list of distinct, readable files whose
archive locations collide with no listed original produces a manifest whose
items record exactly those files, with the archived copies holding the
original bytes and the checksums taken at archive time; everything else in
the filesystem is untouched. -/
lemma archiveAll_spec :
    ∀ (paths : List String) (fs : List (String × List Nat))
      (m : RecoveryManifest),
      (∀ p ∈ paths, (fsLookup p fs).isSome) →
      paths.Nodup →
      (∀ p₁ ∈ paths, ∀ p₂ ∈ paths, archPath m.id p₁ ≠ p₂) →
      ∃ fs' m' items',
        archiveAll fs m paths = some (fs', m') ∧
        m'.id = m.id ∧
        m'.items = m.items ++ items' ∧
        items'.map RecoveryItem.original_path = paths ∧
        (∀ it ∈ items',
          it.archive_path = archPath m.id it.original_path ∧
          fsLookup it.archive_path fs' = fsLookup it.original_path fs ∧
          (∀ bts, fsLookup it.original_path fs = some bts →
            it.checksum = sha256 bts)) ∧
        (∀ r : String,
          (∀ p ∈ paths, r ≠ p ∧ r ≠ archPath m.id p) →
          fsLookup r fs' = fsLookup r fs) := by
  intro paths
  induction paths with
  | nil =>
    intro fs m _ _ _
    exact ⟨fs, m, [], rfl, rfl, by simp, rfl, by simp, fun r _ => rfl⟩
  | cons p rest ih =>
    intro fs m hpres hnodup hdisj
    have hp := hpres p (List.mem_cons_self _ _)
    obtain ⟨bytes, hbytes⟩ := Option.isSome_iff_exists.mp hp
    have hpnotin : p ∉ rest := (List.nodup_cons.mp hnodup).1
    -- the first archive step
    have hstep : archiveFile fs m p "cache" "cleaner" false =
        some (fsInsert (archPath m.id p) bytes (fsRemove p fs),
          { m with
            items := m.items ++
              [⟨p, archPath m.id p, bytes.length, sha256 bytes,
                "cache", "cleaner", false⟩]
            total_size := m.total_size + bytes.length },
          ⟨p, archPath m.id p, bytes.length, sha256 bytes,
            "cache", "cleaner", false⟩) := by
      simp only [archiveFile, hbytes]
    have hrest_pres : ∀ q ∈ rest,
        fsLookup q (fsInsert (archPath m.id p) bytes (fsRemove p fs)) =
          fsLookup q fs := by
      intro q hq
      rw [fsLookup_fsInsert_ne, fsLookup_fsRemove_ne]
      · intro heq
        exact hpnotin (heq ▸ hq)
      · intro heq
        exact hdisj p (List.mem_cons_self _ _)
          q (List.mem_cons_of_mem _ hq) heq.symm
    obtain ⟨fs', m', items'', hall, hid, hitems, hmap, hclauses, hframe⟩ :=
      ih (fsInsert (archPath m.id p) bytes (fsRemove p fs))
        { m with
          items := m.items ++
            [⟨p, archPath m.id p, bytes.length, sha256 bytes,
              "cache", "cleaner", false⟩]
          total_size := m.total_size + bytes.length }
        (by
          intro q hq
          rw [hrest_pres q hq]
          exact hpres q (List.mem_cons_of_mem _ hq))
        (List.nodup_cons.mp hnodup).2
        (by
          intro p₁ h₁ p₂ h₂
          exact hdisj p₁ (List.mem_cons_of_mem _ h₁)
            p₂ (List.mem_cons_of_mem _ h₂))
    refine ⟨fs', m',
      ⟨p, archPath m.id p, bytes.length, sha256 bytes,
        "cache", "cleaner", false⟩ :: items'', ?_, hid, ?_, ?_, ?_, ?_⟩
    · rw [archiveAll, hstep]
      exact hall
    · rw [hitems]
      simp
    · rw [List.map_cons, hmap]
    · intro it hit
      rcases List.mem_cons.mp hit with rfl | hit'
      · refine ⟨rfl, ?_, ?_⟩
        · show fsLookup (archPath m.id p) fs' = fsLookup p fs
          have hfr : fsLookup (archPath m.id p) fs' =
              fsLookup (archPath m.id p)
                (fsInsert (archPath m.id p) bytes (fsRemove p fs)) := by
            apply hframe
            intro q hq
            constructor
            · exact hdisj p (List.mem_cons_self _ _)
                q (List.mem_cons_of_mem _ hq)
            · intro heq
              exact hpnotin (archPath_inj heq ▸ hq)
          rw [hfr, fsLookup_fsInsert_self, hbytes]
        · intro bts hbts
          show sha256 bytes = sha256 bts
          rw [Option.some_inj.mp (hbytes.symm.trans hbts)]
      · obtain ⟨hc1, hc2, hc3⟩ := hclauses it hit'
        have hitorig : it.original_path ∈ rest := by
          rw [← hmap]
          exact List.mem_map.mpr ⟨it, hit', rfl⟩
        refine ⟨hc1, ?_, ?_⟩
        · rw [hc2, hrest_pres it.original_path hitorig]
        · intro bts hbts
          apply hc3
          rw [hrest_pres it.original_path hitorig]
          exact hbts
    · intro r hr
      have hr0 := hr p (List.mem_cons_self _ _)
      have hfr : fsLookup r fs' =
          fsLookup r (fsInsert (archPath m.id p) bytes (fsRemove p fs)) :=
        hframe r (fun q hq => hr q (List.mem_cons_of_mem _ hq))
      rw [hfr, fsLookup_fsInsert_ne hr0.2, fsLookup_fsRemove_ne hr0.1]

/-- Claim C2 (modelled from the spec — `ArchiveOperator::archive` and
`RecoveryManager::restore_recovery` are absent from the sources, which only
contain their caller): for every file archived under a (fresh) manifest,
restoring the saved manifest reproduces the file's original bytes at its
original path, the path exists again, and the manifest's recorded checksum
equals the digest of those bytes.  Side conditions: the archived files are
distinct readable paths and no file lives at another's archive location. -/
theorem archive_restore_roundtrip (s : StoreState)
    (fs : List (String × List Nat)) (m : RecoveryManifest)
    (paths : List String)
    (hfresh : m.items = [])
    (hpres : ∀ p ∈ paths, (fsLookup p fs).isSome)
    (hnodup : paths.Nodup)
    (hdisj : ∀ p₁ ∈ paths, ∀ p₂ ∈ paths, archPath m.id p₁ ≠ p₂) :
    ∃ fs' m' out,
      archiveAll fs m paths = some (fs', m') ∧
      restore_recovery (save_manifest s m') fs' m'.id = .ok out ∧
      ∀ p ∈ paths, ∀ bts, fsLookup p fs = some bts →
        fsLookup p out.2.2 = some bts ∧
        (fsLookup p out.2.2).isSome ∧
        ∃ it ∈ m'.items, it.original_path = p ∧
          it.checksum = sha256 bts := by
  obtain ⟨fs', m', items', hall, hid, hitems, hmap, hclauses, hframe⟩ :=
    archiveAll_spec paths fs m hpres hnodup hdisj
  rw [hfresh, List.nil_append] at hitems
  have hrest : restore_recovery (save_manifest s m') fs' m'.id =
      .ok (restoreItems m'.items fs' 0 0) := by
    rw [restore_recovery, save_manifest_manifests,
      lookupManifest_writeManifestFile]
  refine ⟨fs', m', restoreItems m'.items fs' 0 0, hall, hrest, ?_⟩
  rw [hitems]
  have hpres' : ∀ it ∈ items', ∃ bts,
      fsLookup it.archive_path fs' = some bts ∧
        sha256 bts = it.checksum := by
    intro it hit
    obtain ⟨hc1, hc2, hc3⟩ := hclauses it hit
    have hop : it.original_path ∈ paths := by
      rw [← hmap]
      exact List.mem_map.mpr ⟨it, hit, rfl⟩
    obtain ⟨bts, hbts⟩ := Option.isSome_iff_exists.mp (hpres _ hop)
    exact ⟨bts, by rw [hc2]; exact hbts, (hc3 bts hbts).symm⟩
  have hnodo : (items'.map RecoveryItem.original_path).Nodup := by
    rw [hmap]
    exact hnodup
  have hmapap : items'.map RecoveryItem.archive_path =
      paths.map (archPath m.id) := by
    have h1 : items'.map RecoveryItem.archive_path =
        items'.map (fun it => archPath m.id it.original_path) := by
      apply List.map_congr_left
      intro it hit
      exact (hclauses it hit).1
    rw [h1, ← hmap, List.map_map]
    rfl
  have hnoda : (items'.map RecoveryItem.archive_path).Nodup := by
    rw [hmapap]
    exact hnodup.map (fun a b h => archPath_inj h)
  have hdisj' : ∀ it₁ ∈ items', ∀ it₂ ∈ items',
      it₁.original_path ≠ it₂.archive_path := by
    intro it₁ h₁ it₂ h₂
    have ho₁ : it₁.original_path ∈ paths := by
      rw [← hmap]
      exact List.mem_map.mpr ⟨it₁, h₁, rfl⟩
    have ho₂ : it₂.original_path ∈ paths := by
      rw [← hmap]
      exact List.mem_map.mpr ⟨it₂, h₂, rfl⟩
    rw [(hclauses it₂ h₂).1]
    exact fun heq => hdisj it₂.original_path ho₂ it₁.original_path ho₁
      heq.symm
  intro p hp bts hbts
  have hpm : p ∈ items'.map RecoveryItem.original_path := by
    rw [hmap]
    exact hp
  obtain ⟨it, hit, hitop⟩ := List.mem_map.mp hpm
  obtain ⟨hc1, hc2, hc3⟩ := hclauses it hit
  have hlk : fsLookup it.archive_path fs' = some bts := by
    rw [hc2, hitop]
    exact hbts
  have hres := restoreItems_spec items' fs' 0 0 hpres' hnodo hnoda hdisj'
    it hit bts hlk
  rw [hitop] at hres
  refine ⟨hres, by rw [hres]; rfl, ?_⟩
  refine ⟨it, hit, hitop, ?_⟩
  apply hc3
  rw [hitop]
  exact hbts

/-- Witness for C2: one file `/tmp/cache/a.bin` with bytes `[7, 8]`,
archived into a fresh manifest and restored. -/
theorem archive_restore_roundtrip_witness :
    (RecoveryManifest.mk "2026-01-01_00-00-00" 0 0 [] 30).items = [] ∧
    (∀ p ∈ ["/tmp/cache/a.bin"],
      (fsLookup p [("/tmp/cache/a.bin", [7, 8])]).isSome) ∧
    (["/tmp/cache/a.bin"] : List String).Nodup ∧
    (∀ p₁ ∈ ["/tmp/cache/a.bin"], ∀ p₂ ∈ ["/tmp/cache/a.bin"],
      archPath "2026-01-01_00-00-00" p₁ ≠ p₂) ∧
    (∃ fs' m' out,
      archiveAll [("/tmp/cache/a.bin", [7, 8])]
        (RecoveryManifest.mk "2026-01-01_00-00-00" 0 0 [] 30)
        ["/tmp/cache/a.bin"] = some (fs', m') ∧
      restore_recovery
        (save_manifest ⟨true, true, some (.wellFormed []), [], []⟩ m')
        fs' m'.id = .ok out ∧
      ∀ p ∈ ["/tmp/cache/a.bin"], ∀ bts,
        fsLookup p [("/tmp/cache/a.bin", [7, 8])] = some bts →
        fsLookup p out.2.2 = some bts ∧
        (fsLookup p out.2.2).isSome ∧
        ∃ it ∈ m'.items, it.original_path = p ∧
          it.checksum = sha256 bts) :=
  ⟨rfl, by decide, by decide, by decide,
    archive_restore_roundtrip ⟨true, true, some (.wellFormed []), [], []⟩
      [("/tmp/cache/a.bin", [7, 8])]
      (RecoveryManifest.mk "2026-01-01_00-00-00" 0 0 [] 30)
      ["/tmp/cache/a.bin"] rfl (by decide) (by decide) (by decide)⟩

/-- Claim C1 is violated by the code: a live (`dry_run = false`) clean of
the Temp target deletes `/tmp/junk.log` outright — afterwards the file is
gone from the filesystem and counted in `files_cleaned` — while
`SystemCleaner::clean` and `clean_directory` never construct a manifest,
never call the recovery store, and archive nothing (`clean_directory` is
`fs::remove_file` only; compare `recovery.rs`'s stated recovery-first
design). -/
theorem clean_live_deletes_outright :
    SystemCleaner.clean (some "/Users/u") [] .Temp false c1FsState =
      .ok (⟨1, 100, ["/tmp/junk.log"]⟩,
        ⟨[("/tmp", []), ("/var/tmp", [])]⟩) := by decide

end Dragonfly
